import Mathlib

/-!
Kafka fetch request / response: flattening iterators and the fetch operation context

A shallow embedding of `src/v/kafka/requests/fetch_request.h` and of the ordering
state of `src/v/kafka/protocol.h`.

Conventions of the embedding

* A `std::vector<T>` is a `List T`; a vector iterator is the index it points at
  (`cbegin()` is `0`, `cend()` is the length).  A partition cursor is an index into the
  partition list of the topic it was last assigned from; a value-initialised (singular)
  cursor is `none`.
* Dereferencing or incrementing a cursor that does not point at an element is undefined
  behaviour in the source; the embedding returns `none` there.
* `while` loops are unrolled with explicit fuel; the wrappers pass a fuel that is proved
  sufficient, so `none` never stands for a loop that was cut short.
* `int32_t`, `int64_t` and `std::chrono::milliseconds` values are `Int`; `size_t` values
  are `Nat`; the narrowing `static_cast<int32_t>` is written out with `% 2^32`.
-/

namespace kafka

/-! ## fetch_request -/

namespace fetch_request

/-- Mirror of `fetch_request::partition`. -/
structure partition where
  id : Int
  current_leader_epoch : Int
  fetch_offset : Int
  log_start_offset : Int
  partition_max_bytes : Int
  deriving DecidableEq, Repr

/-- Mirror of `fetch_request::topic`. -/
structure topic where
  name : String
  partitions : List partition
  deriving DecidableEq, Repr

/-- Mirror of `fetch_request::forgotten_topic`. -/
structure forgotten_topic where
  name : String
  partitions : List Int
  deriving DecidableEq, Repr

/-- Mirror of `fetch_request::const_iterator::value_type`: the flag, the topic cursor and
the partition cursor. -/
structure value_type where
  new_topic : Bool
  topic : Nat
  partition : Option Nat
  deriving DecidableEq, Repr

/-- Mirror of `fetch_request::const_iterator`: the members `state_` and `t_end_`. -/
structure const_iterator where
  state_ : value_type
  t_end_ : Nat
  deriving DecidableEq, Repr

end fetch_request

/-- Mirror of `struct fetch_request` (the data members). -/
structure fetch_request where
  replica_id : Int
  max_wait_time : Int
  min_bytes : Int
  max_bytes : Int
  isolation_level : Int
  session_id : Int
  session_epoch : Int
  topics : List fetch_request.topic
  forgotten_topics : List fetch_request.forgotten_topic
  deriving DecidableEq, Repr

namespace fetch_request

/-- The body of `fetch_request::debounce_delay`. -/
def debounce_delay (r : fetch_request) : Option Int :=
  if r.max_wait_time ≤ 0 then none else some r.max_wait_time

/-- The body of `fetch_request::empty`. -/
def empty (r : fetch_request) : Bool :=
  r.topics.isEmpty || r.topics.all (fun t => t.partitions.isEmpty)

namespace const_iterator

/-- The loop of `const_iterator::normalize`, one iteration per unit of fuel.  The loop
condition dereferences `state_.topic`; a topic cursor that points at no topic gives
`none`. -/
def normalize_loop (topics : List topic) : Nat → const_iterator → Option const_iterator
  | 0, _ => none
  | fuel + 1, it =>
    match topics[it.state_.topic]? with
    | none => none
    | some t =>
      if it.state_.partition = some t.partitions.length then
        let it1 : const_iterator :=
          { it with state_ := { it.state_ with topic := it.state_.topic + 1, new_topic := true } }
        if it1.state_.topic ≠ it1.t_end_ then
          normalize_loop topics fuel { it1 with state_ := { it1.state_ with partition := some 0 } }
        else
          some it1
      else
        some it

/-- Mirror of `const_iterator::normalize`.  Every iteration but the last moves the topic
cursor to a topic that exists, so `topics.length + 1` iterations are never exceeded
(`normalize_loop_fuel`). -/
def normalize (topics : List topic) (it : const_iterator) : Option const_iterator :=
  normalize_loop topics (topics.length + 1) it

/-- Mirror of the constructor `const_iterator(begin, end)`. -/
def mk_iterator (topics : List topic) (b e : Nat) : Option const_iterator :=
  let it : const_iterator := { state_ := { new_topic := true, topic := b, partition := none }, t_end_ := e }
  if it.state_.topic ≠ it.t_end_ then
    match topics[it.state_.topic]? with
    | none => none
    | some _ => normalize topics { it with state_ := { it.state_ with partition := some 0 } }
  else
    some it

/-- Mirror of `const_iterator::operator++()` (pre-increment). -/
def incr (topics : List topic) (it : const_iterator) : Option const_iterator :=
  match it.state_.partition with
  | none => none
  | some j =>
    normalize topics { it with state_ := { it.state_ with partition := some (j + 1), new_topic := false } }

/-- Mirror of `const_iterator::operator==`. -/
def eq (a o : const_iterator) : Bool :=
  if a.state_.topic = o.state_.topic then
    if a.state_.topic = a.t_end_ then true
    else decide (a.state_.partition = o.state_.partition)
  else false

/-- Mirror of `const_iterator::operator!=`. -/
def ne (a o : const_iterator) : Bool := !(eq a o)

/-- The values `*it->topic` and `*it->partition` behind the value `*it` of an iterator. -/
def deref (topics : List topic) (v : value_type) : Option (topic × partition) :=
  match topics[v.topic]? with
  | none => none
  | some t =>
    match v.partition with
    | none => none
    | some j =>
      match t.partitions[j]? with
      | none => none
      | some p => some (t, p)

end const_iterator

/-- Mirror of `fetch_request::cbegin`. -/
def cbegin (r : fetch_request) : Option const_iterator :=
  const_iterator.mk_iterator r.topics 0 r.topics.length

/-- Mirror of `fetch_request::cend`. -/
def cend (r : fetch_request) : Option const_iterator :=
  const_iterator.mk_iterator r.topics r.topics.length r.topics.length

/-- The loop `for (; it != e; ++it)` recording `*it` at every step, one step per unit of
fuel. -/
def traversal_loop (topics : List topic) (e : const_iterator) :
    Nat → const_iterator → Option (List value_type)
  | 0, _ => none
  | fuel + 1, it =>
    if const_iterator.ne it e then
      match const_iterator.incr topics it with
      | none => none
      | some it1 =>
        match traversal_loop topics e fuel it1 with
        | none => none
        | some vs => some (it.state_ :: vs)
    else
      some []

/-- The traversal `for (it = cbegin(); it != cend(); ++it)` with the given fuel. -/
def traversal_fuel (r : fetch_request) (fuel : Nat) : Option (List value_type) :=
  match r.cbegin, r.cend with
  | some b, some e => traversal_loop r.topics e fuel b
  | _, _ => none

/-- The total number of partitions of a request. -/
def partition_count (r : fetch_request) : Nat :=
  (r.topics.map (fun t => t.partitions.length)).sum

/-- The traversal `for (it = cbegin(); it != cend(); ++it)`; one unit of fuel per partition
and one for the final comparison with `cend()`. -/
def traversal (r : fetch_request) : Option (List value_type) :=
  traversal_fuel r (r.partition_count + 1)

/-- The iterator reached from `cbegin()` by `k` increments. -/
def advance (r : fetch_request) : Nat → Option const_iterator
  | 0 => r.cbegin
  | k + 1 =>
    match advance r k with
    | none => none
    | some it => const_iterator.incr r.topics it

/-! ### The flat sequence the traversal is compared with -/

/-- The index pairs `(i, 0), ..., (i, p_i - 1)` of every topic of `ts` in order, the first
topic of `ts` being number `i`. -/
def flatten_from : Nat → List topic → List (Nat × Nat)
  | _, [] => []
  | i, t :: ts =>
    (List.range t.partitions.length).map (fun k => (i, k)) ++ flatten_from (i + 1) ts

/-- The (topic index, partition index) pairs of the concatenation of every topic's partition
list, in topic order. -/
def flatten (r : fetch_request) : List (Nat × Nat) := flatten_from 0 r.topics

/-- The (topic, partition) pairs of the concatenation of every topic's partition list, in
topic order. -/
def flatten_values (r : fetch_request) : List (topic × partition) :=
  r.topics.flatMap (fun t => t.partitions.map (fun p => (t, p)))

/-- The index pairs from partition `j` of topic `i` on. -/
def remaining (topics : List topic) (i j : Nat) : List (Nat × Nat) :=
  match topics[i]? with
  | none => []
  | some t =>
    (List.range' j (t.partitions.length - j)).map (fun k => (i, k))
      ++ flatten_from (i + 1) (topics.drop (i + 1))

/-- The index pairs an iterator has still to visit. -/
def rem_of (topics : List topic) (it : const_iterator) : List (Nat × Nat) :=
  remaining topics it.state_.topic (it.state_.partition.getD 0)

/-- The value `*it` the iterator shows at the index pair `p`. -/
def value_at (p : Nat × Nat) : value_type :=
  { new_topic := decide (p.2 = 0), topic := p.1, partition := some p.2 }

/-- An iterator over `topics` is either at end with the flag set, or points at an existing
partition of an existing topic with the flag telling whether that partition is the first of
its topic. -/
def Good (topics : List topic) (it : const_iterator) : Prop :=
  it.t_end_ = topics.length ∧
    ((it.state_.topic = topics.length ∧ it.state_.new_topic = true) ∨
      ∃ t j, topics[it.state_.topic]? = some t ∧ it.state_.partition = some j ∧
        j < t.partitions.length ∧ it.state_.new_topic = decide (j = 0))

/-- The request of the scenario: topics `[("t0", [p0, p1]), ("t1", [])]`, `min_bytes = 1`,
`max_wait_time = 0`. -/
def scenario_request : fetch_request :=
  { replica_id := -1, max_wait_time := 0, min_bytes := 1, max_bytes := 1024,
    isolation_level := 0, session_id := 0, session_epoch := 0,
    topics := [⟨"t0", [⟨0, 0, 0, 0, 512⟩, ⟨1, 0, 0, 0, 512⟩]⟩, ⟨"t1", []⟩],
    forgotten_topics := [] }

/-- A request whose topics with partitions are surrounded by topics without: partition
counts `0, 2, 0, 0, 1, 0`. -/
def sample_request : fetch_request :=
  { replica_id := -1, max_wait_time := 100, min_bytes := 1, max_bytes := 1024,
    isolation_level := 0, session_id := 0, session_epoch := 0,
    topics := [⟨"a", []⟩, ⟨"b", [⟨0, 0, 0, 0, 512⟩, ⟨1, 0, 0, 0, 512⟩]⟩, ⟨"c", []⟩,
      ⟨"d", []⟩, ⟨"e", [⟨7, 0, 0, 0, 512⟩]⟩, ⟨"f", []⟩],
    forgotten_topics := [] }

end fetch_request

/-! ## fetch_response -/

/-- The enumeration `error_code`, by its wire value; `error_code::none` is `0`. -/
abbrev error_code := Int

/-- The value `error_code::none`. -/
def error_code.none : error_code := 0

namespace fetch_response

/-- Mirror of `fetch_response::aborted_transaction`. -/
structure aborted_transaction where
  producer_id : Int
  first_offset : Int
  deriving DecidableEq, Repr

/-- Mirror of `fetch_response::partition_response`; an `iobuf` is its list of bytes. -/
structure partition_response where
  id : Int
  error : error_code
  high_watermark : Int
  last_stable_offset : Int
  log_start_offset : Int
  aborted_transactions : List aborted_transaction
  record_set : Option (List Nat)
  deriving DecidableEq, Repr

/-- The body of `partition_response::has_error`. -/
def partition_response.has_error (p : partition_response) : Bool :=
  p.error != error_code.none

/-- Mirror of `fetch_response::partition`. -/
structure partition where
  name : String
  responses : List partition_response
  deriving DecidableEq, Repr

/-- Mirror of `fetch_response::iterator::value_type`: the group cursor and the response
cursor. -/
structure value_type where
  partition : Nat
  partition_response : Option Nat
  deriving DecidableEq, Repr

/-- Mirror of `fetch_response::iterator`: the members `state_` and `t_end_`. -/
structure iterator where
  state_ : value_type
  t_end_ : Nat
  deriving DecidableEq, Repr

end fetch_response

/-- Mirror of `struct fetch_response` (the data members). -/
structure fetch_response where
  throttle_time : Int
  error : error_code
  session_id : Int
  partitions : List fetch_response.partition
  deriving DecidableEq, Repr

namespace fetch_response

namespace iterator

/-- The loop of `iterator::normalize`, one iteration per unit of fuel. -/
def normalize_loop (partitions : List partition) : Nat → iterator → Option iterator
  | 0, _ => none
  | fuel + 1, it =>
    match partitions[it.state_.partition]? with
    | none => none
    | some g =>
      if it.state_.partition_response = some g.responses.length then
        let it1 : iterator :=
          { it with state_ := { it.state_ with partition := it.state_.partition + 1 } }
        if it1.state_.partition ≠ it1.t_end_ then
          normalize_loop partitions fuel
            { it1 with state_ := { it1.state_ with partition_response := some 0 } }
        else
          some it1
      else
        some it

/-- Mirror of `iterator::normalize`, with the fuel of the request side. -/
def normalize (partitions : List partition) (it : iterator) : Option iterator :=
  normalize_loop partitions (partitions.length + 1) it

/-- Mirror of the constructor `iterator(begin, end)`. -/
def mk_iterator (partitions : List partition) (b e : Nat) : Option iterator :=
  let it : iterator := { state_ := { partition := b, partition_response := none }, t_end_ := e }
  if it.state_.partition ≠ it.t_end_ then
    match partitions[it.state_.partition]? with
    | none => none
    | some _ =>
      normalize partitions { it with state_ := { it.state_ with partition_response := some 0 } }
  else
    some it

/-- Mirror of `iterator::operator++()` (pre-increment). -/
def incr (partitions : List partition) (it : iterator) : Option iterator :=
  match it.state_.partition_response with
  | none => none
  | some j =>
    normalize partitions { it with state_ := { it.state_ with partition_response := some (j + 1) } }

/-- Mirror of `iterator::operator==`. -/
def eq (a o : iterator) : Bool :=
  if a.state_.partition = o.state_.partition then
    if a.state_.partition = a.t_end_ then true
    else decide (a.state_.partition_response = o.state_.partition_response)
  else false

/-- Mirror of `iterator::operator!=`. -/
def ne (a o : iterator) : Bool := !(eq a o)

/-- The slot `*it->partition`, `*it->partition_response` behind the value `*it`. -/
def deref (partitions : List partition) (v : value_type) :
    Option (partition × partition_response) :=
  match partitions[v.partition]? with
  | none => none
  | some g =>
    match v.partition_response with
    | none => none
    | some j =>
      match g.responses[j]? with
      | none => none
      | some p => some (g, p)

end iterator

/-- Mirror of `fetch_response::begin`. -/
def begin (r : fetch_response) : Option iterator :=
  iterator.mk_iterator r.partitions 0 r.partitions.length

/-- Mirror of `fetch_response::end`. -/
def end_ (r : fetch_response) : Option iterator :=
  iterator.mk_iterator r.partitions r.partitions.length r.partitions.length

/-- The loop `for (; it != e; ++it)` recording `*it` at every step, one step per unit of
fuel. -/
def traversal_loop (partitions : List partition) (e : iterator) :
    Nat → iterator → Option (List value_type)
  | 0, _ => none
  | fuel + 1, it =>
    if iterator.ne it e then
      match iterator.incr partitions it with
      | none => none
      | some it1 =>
        match traversal_loop partitions e fuel it1 with
        | none => none
        | some vs => some (it.state_ :: vs)
    else
      some []

/-- The traversal `for (it = begin(); it != end(); ++it)` with the given fuel. -/
def traversal_fuel (r : fetch_response) (fuel : Nat) : Option (List value_type) :=
  match r.begin, r.end_ with
  | some b, some e => traversal_loop r.partitions e fuel b
  | _, _ => none

/-- The total number of partition responses. -/
def response_count (r : fetch_response) : Nat :=
  (r.partitions.map (fun g => g.responses.length)).sum

/-- The traversal `for (it = begin(); it != end(); ++it)`; one unit of fuel per partition
response and one for the final comparison with `end()`. -/
def traversal (r : fetch_response) : Option (List value_type) :=
  traversal_fuel r (r.response_count + 1)

/-- The iterator reached from `begin()` by `k` increments. -/
def advance (r : fetch_response) : Nat → Option iterator
  | 0 => r.begin
  | k + 1 =>
    match advance r k with
    | none => none
    | some it => iterator.incr r.partitions it

/-! ### The flat sequence the traversal is compared with -/

/-- The index pairs `(i, 0), ..., (i, n_i - 1)` of every group of `gs` in order, the first
group of `gs` being number `i`. -/
def flatten_from : Nat → List partition → List (Nat × Nat)
  | _, [] => []
  | i, g :: gs =>
    (List.range g.responses.length).map (fun k => (i, k)) ++ flatten_from (i + 1) gs

/-- The (group index, response index) pairs of the concatenation of every group's responses
list, in group order. -/
def flatten (r : fetch_response) : List (Nat × Nat) := flatten_from 0 r.partitions

/-- The (group, partition_response) slots of the concatenation of every group's responses
list, in group order. -/
def flatten_values (r : fetch_response) : List (partition × partition_response) :=
  r.partitions.flatMap (fun g => g.responses.map (fun p => (g, p)))

/-- The value `*it` the iterator shows at the index pair `p`. -/
def value_at (p : Nat × Nat) : value_type :=
  { partition := p.1, partition_response := some p.2 }

/-- A response whose groups with responses are surrounded by groups without: response
counts `0, 1, 0, 2, 0`. -/
def sample_response : fetch_response :=
  { throttle_time := 0, error := error_code.none, session_id := 0,
    partitions := [⟨"a", []⟩, ⟨"b", [⟨3, 0, 0, 0, 0, [], none⟩]⟩, ⟨"c", []⟩,
      ⟨"d", [⟨0, 0, 0, 0, 0, [], none⟩, ⟨1, 0, 0, 0, 0, [], some [1, 2]⟩]⟩, ⟨"e", []⟩] }

end fetch_response

/-! ## Request and response side by side -/

/-- A list of request topics and a list of response groups have the same shape: the same
number of entries, entry `i` of the one holding as many partitions as entry `i` of the other
holds responses. -/
def same_shape (topics : List fetch_request.topic) (partitions : List fetch_response.partition) :
    Prop :=
  topics.map (fun t => t.partitions.length) = partitions.map (fun g => g.responses.length)

/-- A list of request topics of the shape of the given response groups. -/
def shape_of (partitions : List fetch_response.partition) : List fetch_request.topic :=
  partitions.map (fun g => ⟨g.name, g.responses.map (fun p => ⟨p.id, 0, 0, 0, 0⟩)⟩)

/-- A request whose topics have the shape of the groups of the given response. -/
def request_of_shape (resp : fetch_response) : fetch_request :=
  { replica_id := 0, max_wait_time := 0, min_bytes := 0, max_bytes := 0, isolation_level := 0,
    session_id := 0, session_epoch := 0, topics := shape_of resp.partitions,
    forgotten_topics := [] }

/-- The response iterator at the position of a request iterator. -/
def to_response_iterator (it : fetch_request.const_iterator) : fetch_response.iterator :=
  { state_ := { partition := it.state_.topic, partition_response := it.state_.partition },
    t_end_ := it.t_end_ }

/-- The response iterator value at the position of a request iterator value. -/
def to_response_value (v : fetch_request.value_type) : fetch_response.value_type :=
  { partition := v.topic, partition_response := v.partition }

/-! ## op_context -/

/-- Mirror of `struct op_context` (the data members the header's inline functions read; the
handles `rctx` and `ssg` carry no data of the embedding).  A `time_point` is its tick
count. -/
structure op_context where
  request : fetch_request
  response : fetch_response
  bytes_left : Nat
  deadline : Option Int
  response_size : Nat
  response_error : Bool
  initial_fetch : Bool
  deriving DecidableEq, Repr

/-- The conversion `static_cast<int32_t>(n)` of a `size_t`: the low 32 bits, read as a two's
complement number. -/
def to_int32 (n : Nat) : Int :=
  if n % 2 ^ 32 < 2 ^ 31 then ((n % 2 ^ 32 : Nat) : Int) else ((n % 2 ^ 32 : Nat) : Int) - 2 ^ 32

/-- The comparison `opt <= value` of a `std::optional` with a value: an empty optional is
below every value. -/
def optional_le (opt : Option Int) (value : Int) : Bool :=
  match opt with
  | none => true
  | some t => decide (t ≤ value)

namespace op_context

/-- The body of `op_context::over_min_bytes`. -/
def over_min_bytes (c : op_context) : Bool :=
  decide (to_int32 c.response_size ≥ c.request.min_bytes)

/-- The body of `op_context::should_stop_fetch`; `now` is the value of
`model::timeout_clock::now()`. -/
def should_stop_fetch (c : op_context) (now : Int) : Bool :=
  !(c.request.debounce_delay.isSome) || c.over_min_bytes || c.request.empty
    || c.response_error || optional_le c.deadline now

/-- A context over `request` with an empty response, the given accumulated size and
deadline, and no error. -/
def fresh (request : fetch_request) (response_size : Nat) (deadline : Option Int) :
    op_context :=
  { request := request,
    response := { throttle_time := 0, error := error_code.none, session_id := 0, partitions := [] },
    bytes_left := 0, deadline := deadline, response_size := response_size,
    response_error := false, initial_fetch := true }

/-- A context of the sample request (`min_bytes = 1`, `max_wait_time = 100`, partitions
present, no error) that has collected `2^31` bytes, with the deadline at tick 10. -/
def large_response_context : op_context :=
  fresh fetch_request.sample_request (2 ^ 31) (some 10)

/-! ### Response placeholders -/

/-- The context with the groups of its response replaced. -/
def with_groups (c : op_context) (gs : List fetch_response.partition) : op_context :=
  { c with response := { c.response with partitions := gs } }

/-- Modelled from the spec: the initially-empty slot ("placeholder") created for a request
partition; the header declares only the fields of `partition_response`, not the code that
fills the slot.  The slot carries the partition id, no error, no data. -/
def placeholder (p : fetch_request.partition) : fetch_response.partition_response :=
  { id := p.id, error := error_code.none, high_watermark := 0, last_stable_offset := 0,
    log_start_offset := 0, aborted_transactions := [], record_set := none }

/-- Modelled from the spec: the body of `op_context::start_response_topic` is not under src/
(the header declares it: "reserve space for a new topic in the response").  It appends to
the response a group named after the request topic, holding no response yet. -/
def start_response_topic (c : op_context) (t : fetch_request.topic) : op_context :=
  with_groups c (c.response.partitions ++ [⟨t.name, []⟩])

/-- Modelled from the spec: the body of `op_context::start_response_partition` is not under
src/ (the header declares it: "reserve space for new partition in the response").  It
appends the placeholder of the request partition to the last group of the response; with no
group there is nothing to append to. -/
def start_response_partition (c : op_context) (p : fetch_request.partition) :
    Option op_context :=
  match c.response.partitions.getLast? with
  | none => none
  | some g =>
    some (with_groups c
      (c.response.partitions.dropLast ++ [{ g with responses := g.responses ++ [placeholder p] }]))

/-- Modelled from the spec: the body of `op_context::create_response_placeholders` is not
under src/ (the header declares it: "create placeholder for response topics and
partitions").  It walks the request with `fetch_request::const_iterator`, starts a response
topic at every step whose `new_topic` flag is set and a response partition at every step.
This is the loop, one step per unit of fuel. -/
def create_response_placeholders_loop (topics : List fetch_request.topic)
    (e : fetch_request.const_iterator) :
    Nat → fetch_request.const_iterator → op_context → Option op_context
  | 0, _, _ => none
  | fuel + 1, it, c =>
    if fetch_request.const_iterator.ne it e then
      match fetch_request.const_iterator.deref topics it.state_ with
      | none => none
      | some (t, p) =>
        match start_response_partition
            (if it.state_.new_topic then start_response_topic c t else c) p with
        | none => none
        | some c2 =>
          match fetch_request.const_iterator.incr topics it with
          | none => none
          | some it1 => create_response_placeholders_loop topics e fuel it1 c2
    else
      some c

/-- Modelled from the spec: `op_context::create_response_placeholders`, the loop above from
`request.cbegin()` to `request.cend()`. -/
def create_response_placeholders (c : op_context) : Option op_context :=
  match c.request.cbegin, c.request.cend with
  | some b, some e =>
    create_response_placeholders_loop c.request.topics e (c.request.partition_count + 1) b c
  | _, _ => none

/-- The response group that mirrors a request topic: the same name, one placeholder per
partition in order. -/
def mirror (t : fetch_request.topic) : fetch_response.partition :=
  ⟨t.name, t.partitions.map placeholder⟩

/-- The group of a request topic when the placeholders of its first `j` partitions have
been created. -/
def mirror_upto (t : fetch_request.topic) (j : Nat) : fetch_response.partition :=
  ⟨t.name, (t.partitions.take j).map placeholder⟩

/-- A response mirrors a request: as many groups as topics, in order, group `i` named after
topic `i` and holding one partition response per partition of topic `i`, in order. -/
def mirrors (req : fetch_request) (resp : fetch_response) : Prop :=
  resp.partitions.length = req.topics.length ∧
    resp.partitions.map (fun g => (g.name, g.responses.map (fun p => p.id)))
      = req.topics.map (fun t => (t.name, t.partitions.map (fun p => p.id)))

/-- The effect of the placeholder steps at the index pairs `ps`, in order. -/
def place_all (topics : List fetch_request.topic) : List (Nat × Nat) → op_context → Option op_context
  | [], c => some c
  | p :: ps, c =>
    match fetch_request.const_iterator.deref topics (fetch_request.value_at p) with
    | none => none
    | some (t, q) =>
      match start_response_partition
          (if (fetch_request.value_at p).new_topic then start_response_topic c t else c) q with
      | none => none
      | some c2 => place_all topics ps c2

end op_context

/-! ## protocol::connection_context -/

namespace protocol

/-- Mirror of the ordering members of `protocol::connection_context`: the counters
`_next_response` and `_seq_idx` and the table `_responses` (a `flat_hash_map` from sequence
id to response, here an association list with at most one entry per id).  `written` is the
outgoing stream: the (sequence id, response) pairs written so far, oldest first.

Modelled from the spec: a sequence id is "an opaque, strictly increasing" counter, so ids
are natural numbers and the counters do not wrap. -/
structure connection_context (R : Type) where
  _next_response : Nat
  _seq_idx : Nat
  _responses : List (Nat × R)
  written : List (Nat × R)

/-- What happens on a connection: a request is decoded, the processing of the request with
the given sequence id completes, or the emit loop runs. -/
inductive event where
  | decode : event
  | complete : Nat → event
  | emit : event
  deriving DecidableEq, Repr

namespace connection_context

variable {R : Type}

/-- The lookup `_responses.find(k)`. -/
def find : List (Nat × R) → Nat → Option R
  | [], _ => none
  | (k1, r) :: m, k => if k1 = k then some r else find m k

/-- The removal of the entry of `k` from the table. -/
def erase (m : List (Nat × R)) (k : Nat) : List (Nat × R) :=
  m.filter (fun e => decide (e.1 ≠ k))

/-- The insertion `_responses.insert({k, r})`: a table that has an entry for `k` keeps it. -/
def insert (m : List (Nat × R)) (k : Nat) (r : R) : List (Nat × R) :=
  match find m k with
  | some _ => m
  | none => (k, r) :: m

/-- A connection on which nothing has happened yet. -/
def init : connection_context R :=
  { _next_response := 0, _seq_idx := 0, _responses := [], written := [] }

/-- Modelled from the spec: the bodies of `dispatch_method_once` and `do_process` are not
under src/.  Decoding a request assigns it the next sequence id and advances `_seq_idx`
("assigned to each request as it is decoded"). -/
def dispatch (s : connection_context R) : connection_context R :=
  { s with _seq_idx := s._seq_idx + 1 }

/-- Modelled from the spec: the body of `do_process` is not under src/.  When the
processing of request `seq` completes, its response `r` is put into the pending-response
table under `seq`. -/
def complete (s : connection_context R) (seq : Nat) (r : R) : connection_context R :=
  { s with _responses := insert s._responses seq r }

/-- Modelled from the spec: the body of `process_next_response` is not under src/.  The
emit loop, one iteration per unit of fuel: while the table holds the entry whose id is
`_next_response`, write it to the stream, remove it from the table and advance
`_next_response`; stop when the table does not hold that id. -/
def process_next_response_loop : Nat → connection_context R → Option (connection_context R)
  | 0, _ => none
  | fuel + 1, s =>
    match find s._responses s._next_response with
    | none => some s
    | some r =>
      process_next_response_loop fuel
        { s with
          _next_response := s._next_response + 1,
          _responses := erase s._responses s._next_response,
          written := s.written ++ [(s._next_response, r)] }

/-- Modelled from the spec: `process_next_response`.  Every iteration but the last removes an
entry, so one more iteration than the table has entries is never exceeded. -/
def process_next_response (s : connection_context R) : Option (connection_context R) :=
  process_next_response_loop (s._responses.length + 1) s

/-- One event on the connection; `resp i` is the response the processing of request `i`
produces. -/
def step (resp : Nat → R) (s : connection_context R) : event → Option (connection_context R)
  | event.decode => some (dispatch s)
  | event.complete seq => some (complete s seq (resp seq))
  | event.emit => process_next_response s

/-- A sequence of events on the connection. -/
def run (resp : Nat → R) : connection_context R → List event → Option (connection_context R)
  | s, [] => some s
  | s, e :: es =>
    match step resp s e with
    | none => none
    | some s1 => run resp s1 es

/-- The number of requests decoded in a sequence of events. -/
def decodes : List event → Nat
  | [] => 0
  | event.decode :: es => decodes es + 1
  | _ :: es => decodes es

/-- The sequence ids whose processing completes in a sequence of events. -/
def completions : List event → List Nat
  | [] => []
  | event.complete seq :: es => seq :: completions es
  | _ :: es => completions es

/-- A sequence of events is well formed, `n` requests having been decoded and the requests
`done` completed before: only a decoded request completes, and it completes once. -/
def well_formed_from : Nat → List Nat → List event → Bool
  | _, _, [] => true
  | n, done, event.decode :: es => well_formed_from (n + 1) done es
  | n, done, event.complete seq :: es =>
    decide (seq < n) && !(done.contains seq) && well_formed_from n (seq :: done) es
  | n, done, event.emit :: es => well_formed_from n done es

/-- A sequence of events on a new connection is well formed. -/
def well_formed (es : List event) : Bool := well_formed_from 0 [] es

/-- The state of a connection on which `n` requests have been decoded and the requests
`done` have completed: the next-due counter has not passed the decode counter, every request
below it has completed, the table holds exactly the completed requests from the next-due
counter on, each with its own response, and the stream holds the responses of the requests
below the next-due counter, in decode order. -/
structure Inv (resp : Nat → R) (s : connection_context R) (n : Nat) (done : List Nat) :
    Prop where
  seq : s._seq_idx = n
  le : s._next_response ≤ n
  below : ∀ i, i < s._next_response → i ∈ done
  table : ∀ i, find s._responses i
    = if i ∈ done ∧ s._next_response ≤ i then some (resp i) else none
  bound : ∀ i, i ∈ done → i < n
  log : s.written = (List.range s._next_response).map (fun i => (i, resp i))

/-- Three requests whose processing completes in the order 1, 2, 0, the emit loop running
after every completion. -/
def sample_events : List event :=
  [event.decode, event.decode, event.complete 1, event.emit, event.decode,
    event.complete 2, event.emit, event.complete 0]

end connection_context

end protocol

/-! ## partition_wrapper and read_result -/

/-- A `model::record_batch_reader`, by the record batches it yields (each a list of
bytes); the type is declared outside this header. -/
structure record_batch_reader where
  batches : List (List Nat)
  deriving DecidableEq, Repr

/-- A `storage::log_reader_config`: the start offset and the byte ceiling of a read; the type
is declared outside this header. -/
structure log_reader_config where
  start_offset : Int
  max_bytes : Nat
  deriving DecidableEq, Repr

/-- What this header uses of a `cluster::partition`, a type declared outside it: the
operations `make_reader`, `high_watermark` and `last_stable_offset`. -/
structure cluster_partition where
  make_reader : log_reader_config → record_batch_reader
  high_watermark : Int
  last_stable_offset : Int

/-- What this header uses of a `storage::log`, a type declared outside it: the operation
`make_reader` and the field `dirty_offset` of `offsets()`. -/
structure storage_log where
  make_reader : log_reader_config → record_batch_reader
  dirty_offset : Int

/-- Mirror of `class partition_wrapper`: the members `_partition` and `_log`. -/
structure partition_wrapper where
  _partition : cluster_partition
  _log : Option storage_log

namespace partition_wrapper

/-- The body of `partition_wrapper::make_reader`. -/
def make_reader (w : partition_wrapper) (config : log_reader_config) : record_batch_reader :=
  match w._log with
  | some l => l.make_reader config
  | none => w._partition.make_reader config

/-- The body of `partition_wrapper::high_watermark`. -/
def high_watermark (w : partition_wrapper) : Int :=
  match w._log with
  | some l => l.dirty_offset
  | none => w._partition.high_watermark

/-- The body of `partition_wrapper::last_stable_offset`. -/
def last_stable_offset (w : partition_wrapper) : Int :=
  match w._log with
  | some l => l.dirty_offset
  | none => w._partition.last_stable_offset

/-- A live partition at high watermark 40 and last stable offset 30 that reads one batch. -/
def sample_partition : cluster_partition :=
  { make_reader := fun _ => ⟨[[1, 2, 3]]⟩, high_watermark := 40, last_stable_offset := 30 }

/-- A log snapshot at dirty offset 25 that reads nothing. -/
def sample_log : storage_log :=
  { make_reader := fun _ => ⟨[]⟩, dirty_offset := 25 }

end partition_wrapper

/-- Mirror of `struct read_result`: the members `reader`, `high_watermark`,
`last_stable_offset` and `error`. -/
structure read_result where
  reader : Option record_batch_reader
  high_watermark : Int
  last_stable_offset : Int
  error : error_code
  deriving DecidableEq, Repr

namespace read_result

/-- Mirror of the constructor `read_result(error_code e)`.  The offsets are left
default-constructed; `default_offset` is the value of a default-constructed `model::offset`,
a type declared outside this header. -/
def of_error (default_offset : Int) (e : error_code) : read_result :=
  { reader := none, high_watermark := default_offset, last_stable_offset := default_offset,
    error := e }

/-- Mirror of the constructor `read_result(rdr, hw, lso)`. -/
def of_reader (rdr : record_batch_reader) (hw lso : Int) : read_result :=
  { reader := some rdr, high_watermark := hw, last_stable_offset := lso,
    error := error_code.none }

/-- Mirror of the constructor `read_result(hw, lso)`. -/
def of_offsets (hw lso : Int) : read_result :=
  { reader := none, high_watermark := hw, last_stable_offset := lso, error := error_code.none }

/-- One call of a constructor of `read_result`, with its arguments. -/
inductive construction where
  | with_error : error_code → construction
  | with_reader : record_batch_reader → Int → Int → construction
  | with_offsets : Int → Int → construction
  deriving DecidableEq, Repr

/-- The `read_result` a constructor call builds. -/
def build (default_offset : Int) : construction → read_result
  | construction.with_error e => of_error default_offset e
  | construction.with_reader rdr hw lso => of_reader rdr hw lso
  | construction.with_offsets hw lso => of_offsets hw lso

/-- The first case of the tagged outcome: an error code other than `none`, and no reader. -/
def is_error_outcome (rr : read_result) : Prop :=
  rr.error ≠ error_code.none ∧ rr.reader = none

/-- The second case of the tagged outcome: the error code `none`, and a reader. -/
def is_reader_outcome (rr : read_result) : Prop :=
  rr.error = error_code.none ∧ rr.reader.isSome = true

end read_result

/-! ## Iterators a traversal can produce -/

namespace fetch_request

/-- The iterator is at end, or its partition cursor points at a partition of the topic its
topic cursor points at. -/
def in_bounds (topics : List topic) (it : const_iterator) : Prop :=
  it.state_.topic = topics.length ∨
    ∃ t j, topics[it.state_.topic]? = some t ∧ it.state_.partition = some j ∧
      j < t.partitions.length

/-- The iterators over a request that construction (`cbegin()`, `cend()`) and the increment
of an iterator that is not equal to `cend()` produce. -/
inductive produced (r : fetch_request) : const_iterator → Prop where
  | cbegin {it : const_iterator} : r.cbegin = some it → produced r it
  | cend {it : const_iterator} : r.cend = some it → produced r it
  | incr {it e it1 : const_iterator} : produced r it → r.cend = some e →
      const_iterator.eq it e = false → const_iterator.incr r.topics it = some it1 →
      produced r it1

end fetch_request

namespace fetch_response

/-- The iterator is at end, or its response cursor points at a response of the group its
group cursor points at. -/
def in_bounds (partitions : List partition) (it : iterator) : Prop :=
  it.state_.partition = partitions.length ∨
    ∃ g j, partitions[it.state_.partition]? = some g ∧ it.state_.partition_response = some j ∧
      j < g.responses.length

/-- The iterators over a response that construction (`begin()`, `end()`) and the increment
of an iterator that is not equal to `end()` produce. -/
inductive produced (r : fetch_response) : iterator → Prop where
  | begin {it : iterator} : r.begin = some it → produced r it
  | end_ {it : iterator} : r.end_ = some it → produced r it
  | incr {it e it1 : iterator} : produced r it → r.end_ = some e →
      iterator.eq it e = false → iterator.incr r.partitions it = some it1 →
      produced r it1

/-- A response of the shape of `fetch_request.sample_request`: response counts
`0, 2, 0, 0, 1, 0`. -/
def lockstep_response : fetch_response :=
  { throttle_time := 0, error := error_code.none, session_id := 0,
    partitions := [⟨"a", []⟩,
      ⟨"b", [⟨0, 0, 0, 0, 0, [], none⟩, ⟨1, 0, 0, 0, 0, [], none⟩]⟩, ⟨"c", []⟩, ⟨"d", []⟩,
      ⟨"e", [⟨7, 0, 0, 0, 0, [], none⟩]⟩, ⟨"f", []⟩] }

end fetch_response

end kafka

/-! # Theorems -/

namespace kafka
namespace fetch_request
open const_iterator

/-! ## The request iterator -/

theorem remaining_zero (topics : List topic) (i : Nat) :
    remaining topics i 0 = flatten_from i (topics.drop i) := by
  unfold remaining
  cases h : topics[i]? with
  | none =>
    have hi : topics.length ≤ i := by simpa using h
    simp [List.drop_eq_nil_of_le hi, flatten_from]
  | some t =>
    obtain ⟨hi, ht⟩ := List.getElem?_eq_some_iff.mp h
    rw [List.drop_eq_getElem_cons hi]
    simp [flatten_from, ht, List.range_eq_range']

theorem remaining_end (topics : List topic) (i : Nat) (t : topic)
    (h : topics[i]? = some t) :
    remaining topics i t.partitions.length = remaining topics (i + 1) 0 := by
  rw [remaining_zero]
  simp [remaining, h]

theorem remaining_cons (topics : List topic) (i j : Nat) (t : topic)
    (h : topics[i]? = some t) (hj : j < t.partitions.length) :
    remaining topics i j = (i, j) :: remaining topics i (j + 1) := by
  simp only [remaining, h]
  have : t.partitions.length - j = (t.partitions.length - (j + 1)) + 1 := by omega
  rw [this, List.range'_succ]
  simp

/-- More fuel than the topics left changes nothing: `normalize_loop` never stops for want
of fuel when given `topics.length + 1`. -/
theorem normalize_loop_fuel (topics : List topic) :
    ∀ (d fuel : Nat) (it : const_iterator),
      topics.length - it.state_.topic ≤ d → d < fuel →
      normalize_loop topics fuel it = normalize_loop topics (d + 1) it := by
  intro d
  induction d with
  | zero =>
    intro fuel it hd hf
    have hnone : topics[it.state_.topic]? = none := by
      simp only [List.getElem?_eq_none_iff]; omega
    cases fuel with
    | zero => omega
    | succ f => simp [normalize_loop, hnone]
  | succ d ih =>
    intro fuel it hd hf
    cases fuel with
    | zero => omega
    | succ f =>
      rw [normalize_loop, normalize_loop]
      cases ht : topics[it.state_.topic]? with
      | none => rfl
      | some t =>
        simp only
        by_cases hp : it.state_.partition = some t.partitions.length
        · simp only [hp, if_true]
          by_cases he : it.state_.topic + 1 = it.t_end_
          · simp [he]
          · simp only [ne_eq, he, not_false_eq_true, if_true]
            exact ih f ⟨⟨true, it.state_.topic + 1, some 0⟩, it.t_end_⟩
              (by simp only; omega) (by omega)
        · simp [hp]

theorem normalize_loop_spec (topics : List topic) :
    ∀ (d i j : Nat) (nt : Bool) (t : topic),
      topics.length - i ≤ d → topics[i]? = some t → j ≤ t.partitions.length →
      nt = decide (j = 0) →
      ∃ it1, normalize_loop topics (d + 1) ⟨⟨nt, i, some j⟩, topics.length⟩ = some it1 ∧
        Good topics it1 ∧ rem_of topics it1 = remaining topics i j := by
  intro d
  induction d with
  | zero =>
    intro i j nt t hd ht
    have := (List.getElem?_eq_some_iff.mp ht).1
    omega
  | succ d ih =>
    intro i j nt t hd ht hj hnt
    have hi := (List.getElem?_eq_some_iff.mp ht).1
    rw [normalize_loop]
    simp only [ht]
    by_cases hjt : j = t.partitions.length
    · subst hjt
      simp only [if_true]
      by_cases hend : i + 1 = topics.length
      · refine ⟨⟨⟨true, i + 1, some t.partitions.length⟩, topics.length⟩, ?_, ?_, ?_⟩
        · simp [hend]
        · exact ⟨rfl, Or.inl ⟨hend, rfl⟩⟩
        · have hnone : topics[i + 1]? = none := by simp [hend]
          simp [rem_of, remaining, hnone, ht, hend, flatten_from]
      · have hlt : i + 1 < topics.length := by omega
        obtain ⟨it1, h1, h2, h3⟩ :=
          ih (i + 1) 0 true topics[i + 1] (by omega)
            (List.getElem?_eq_getElem hlt) (Nat.zero_le _) (by simp)
        refine ⟨it1, ?_, h2, ?_⟩
        · simpa [hend] using h1
        · rw [h3, remaining_end topics i t ht]
    · refine ⟨⟨⟨nt, i, some j⟩, topics.length⟩, ?_, ?_, rfl⟩
      · simp [hjt]
      · refine ⟨rfl, Or.inr ⟨t, j, ht, rfl, by omega, hnt⟩⟩

theorem normalize_spec (topics : List topic) (i j : Nat) (nt : Bool) (t : topic)
    (ht : topics[i]? = some t) (hj : j ≤ t.partitions.length) (hnt : nt = decide (j = 0)) :
    ∃ it1, normalize topics ⟨⟨nt, i, some j⟩, topics.length⟩ = some it1 ∧
      Good topics it1 ∧ rem_of topics it1 = remaining topics i j :=
  normalize_loop_spec topics topics.length i j nt t (Nat.sub_le _ _) ht hj hnt

theorem cend_eq (r : fetch_request) :
    r.cend = some ⟨⟨true, r.topics.length, none⟩, r.topics.length⟩ := by
  simp [cend, mk_iterator]

theorem cbegin_spec (r : fetch_request) :
    ∃ b, r.cbegin = some b ∧ Good r.topics b ∧ rem_of r.topics b = flatten r := by
  unfold cbegin mk_iterator
  by_cases h0 : 0 = r.topics.length
  · refine ⟨⟨⟨true, 0, none⟩, r.topics.length⟩, ?_, ?_, ?_⟩
    · simp [h0]
    · exact ⟨rfl, Or.inl ⟨h0, rfl⟩⟩
    · have hnil : r.topics = [] := List.length_eq_zero.mp h0.symm
      simp [rem_of, remaining, flatten, hnil, flatten_from]
  · have hlt : 0 < r.topics.length := by omega
    obtain ⟨it1, h1, h2, h3⟩ :=
      normalize_spec r.topics 0 0 true r.topics[0] (List.getElem?_eq_getElem hlt)
        (Nat.zero_le _) (by simp)
    refine ⟨it1, ?_, h2, ?_⟩
    · simp only [ne_eq, h0, not_false_eq_true, if_true, List.getElem?_eq_getElem hlt]
      exact h1
    · rw [h3, remaining_zero]; simp [flatten]

theorem incr_spec (topics : List topic) (it : const_iterator) (hg : Good topics it)
    (hne : it.state_.topic ≠ topics.length) :
    ∃ j it1, it.state_.partition = some j ∧ incr topics it = some it1 ∧ Good topics it1 ∧
      it.state_.new_topic = decide (j = 0) ∧ (deref topics it.state_).isSome ∧
      rem_of topics it = (it.state_.topic, j) :: rem_of topics it1 := by
  obtain ⟨he, hcase⟩ := hg
  rcases hcase with ⟨h, _⟩ | ⟨t, j, ht, hp, hj, hnt⟩
  · exact absurd h hne
  · obtain ⟨it1, h1, h2, h3⟩ :=
      normalize_spec topics it.state_.topic (j + 1) false t ht (by omega) (by simp)
    refine ⟨j, it1, hp, ?_, h2, hnt, ?_, ?_⟩
    · simp only [incr, hp]
      rw [he]
      exact h1
    · have : (t.partitions[j]?).isSome := by simp [hj]
      obtain ⟨p, hp2⟩ := Option.isSome_iff_exists.mp this
      simp [deref, ht, hp, hp2]
    · rw [h3]
      simp only [rem_of, hp, Option.getD_some]
      exact remaining_cons topics _ j t ht hj

theorem rem_of_nil_iff (topics : List topic) (it : const_iterator) (hg : Good topics it) :
    rem_of topics it = [] ↔ it.state_.topic = topics.length := by
  constructor
  · intro h
    by_contra hne
    obtain ⟨j, it1, _, _, _, _, _, h6⟩ := incr_spec topics it hg hne
    rw [h6] at h
    exact List.cons_ne_nil _ _ h
  · intro h
    have : topics[it.state_.topic]? = none := by simp [h]
    simp [rem_of, remaining, this]

theorem ne_cend (topics : List topic) (it : const_iterator) (hg : Good topics it) :
    ne it ⟨⟨true, topics.length, none⟩, topics.length⟩
      = decide (it.state_.topic ≠ topics.length) := by
  by_cases h : it.state_.topic = topics.length
  · simp [ne, eq, h, hg.1]
  · simp [ne, eq, h]

theorem value_at_of (it : const_iterator) (j : Nat) (hp : it.state_.partition = some j)
    (hnt : it.state_.new_topic = decide (j = 0)) :
    it.state_ = value_at (it.state_.topic, j) := by
  cases it with
  | mk s e =>
    cases s with
    | mk a b c =>
      simp only at hp hnt
      simp [value_at, hp, hnt]

theorem traversal_loop_spec (topics : List topic) :
    ∀ (fuel : Nat) (it : const_iterator), Good topics it →
      (rem_of topics it).length < fuel →
      traversal_loop topics ⟨⟨true, topics.length, none⟩, topics.length⟩ fuel it
        = some ((rem_of topics it).map value_at) := by
  intro fuel
  induction fuel with
  | zero => intro it _ h; omega
  | succ fuel ih =>
    intro it hg hlen
    rw [traversal_loop, ne_cend topics it hg]
    by_cases h : it.state_.topic = topics.length
    · simp [h, (rem_of_nil_iff topics it hg).mpr h]
    · obtain ⟨j, it1, hp, hincr, hg1, hnt, _, hrem⟩ := incr_spec topics it hg h
      have hlen1 : (rem_of topics it1).length < fuel := by
        rw [hrem] at hlen
        simpa using hlen
      simp only [ne_eq, h, not_false_eq_true, decide_True, if_true, hincr, ih it1 hg1 hlen1]
      rw [hrem, List.map_cons, ← value_at_of it j hp hnt]

theorem length_flatten_from (ts : List topic) :
    ∀ i, (flatten_from i ts).length = (ts.map (fun t => t.partitions.length)).sum := by
  induction ts with
  | nil => intro i; simp [flatten_from]
  | cons t ts ih => intro i; simp [flatten_from, ih]

theorem map_getElem?_range {α : Type} (l : List α) :
    (List.range l.length).map (fun j => l[j]?) = l.map some := by
  apply List.ext_getElem?
  intro n
  by_cases h : n < l.length
  · simp [h, List.getElem?_range]
  · have h1 : (List.range l.length)[n]? = none := by simp; omega
    have h2 : l[n]? = none := by simp; omega
    simp [h1, h2]

theorem deref_flatten_from (ts : List topic) :
    ∀ (pre : List topic),
      (flatten_from pre.length ts).map (fun p => deref (pre ++ ts) (value_at p))
        = (ts.flatMap (fun t => t.partitions.map (fun p => (t, p)))).map some := by
  induction ts with
  | nil => intro pre; simp [flatten_from]
  | cons t ts ih =>
    intro pre
    have hrec := ih (pre ++ [t])
    simp only [List.length_append, List.length_singleton, List.append_assoc,
      List.singleton_append] at hrec
    simp only [flatten_from, List.map_append, List.map_map, List.flatMap_cons, hrec]
    congr 1
    have ht : (pre ++ t :: ts)[pre.length]? = some t := by
      rw [List.getElem?_append_right (le_refl _)]
      simp
    have key : List.map (some ∘ fun p => (t, p)) t.partitions
        = List.map (fun j => (t.partitions[j]?).map (fun p => (t, p)))
            (List.range t.partitions.length) := by
      have := congrArg (List.map (Option.map (fun p : partition => (t, p))))
        (map_getElem?_range t.partitions)
      simp only [List.map_map] at this
      exact this.symm
    rw [key]
    apply List.map_congr_left
    intro j _
    simp only [Function.comp, deref, value_at, ht]
    cases t.partitions[j]? <;> rfl

theorem filter_flatten_from (i : Nat) (ts : List topic) :
    ∀ k, (flatten_from k ts).filter (fun p => decide (p.1 = i))
      = if k ≤ i then
          (match ts[i - k]? with
            | some t => (List.range t.partitions.length).map (fun j => (i, j))
            | none => [])
        else [] := by
  induction ts with
  | nil => intro k; simp [flatten_from]
  | cons t ts ih =>
    intro k
    simp only [flatten_from, List.filter_append, ih (k + 1), List.filter_map]
    rcases Nat.lt_trichotomy i k with h | h | h
    · have h1 : ¬ k ≤ i := by omega
      have h2 : ¬ k + 1 ≤ i := by omega
      simp [h1, h2, List.filter_eq_nil_iff]
      omega
    · subst h
      have h3 : List.filter ((fun p : Nat × Nat => decide (p.1 = i)) ∘ fun k => (i, k))
          (List.range t.partitions.length) = List.range t.partitions.length := by
        rw [List.filter_eq_self]
        intro a _
        simp
      simp [h3]
    · have h1 : k ≤ i := by omega
      have h2 : k + 1 ≤ i := by omega
      have h3 : i - k = (i - (k + 1)) + 1 := by omega
      simp only [h1, h2, if_true, h3, List.getElem?_cons_succ]
      simp [List.filter_eq_nil_iff]
      omega

theorem traversal_spec (r : fetch_request) (extra : Nat) :
    traversal_fuel r (r.partition_count + 1 + extra) = some (r.flatten.map value_at) := by
  obtain ⟨b, hb, hg, hrem⟩ := cbegin_spec r
  have hlen : (rem_of r.topics b).length < r.partition_count + 1 + extra := by
    rw [hrem, flatten, length_flatten_from, partition_count]
    omega
  simp only [traversal_fuel, hb, cend_eq]
  rw [traversal_loop_spec r.topics _ b hg hlen, hrem]

theorem filter_flatten_fin (r : fetch_request) (i : Fin r.topics.length) :
    r.flatten.filter (fun p => decide (p.1 = i.1))
      = (List.range (r.topics.get i).partitions.length).map (fun j => (i.1, j)) := by
  rw [flatten, filter_flatten_from]
  simp [List.getElem?_eq_getElem i.2]

theorem head_flatten_from (ts : List topic) :
    ∀ (k : Nat) (p : Nat × Nat), (flatten_from k ts).head? = some p → p.2 = 0 := by
  induction ts with
  | nil => intro k p h; simp [flatten_from] at h
  | cons t ts ih =>
    intro k p h
    cases hn : t.partitions.length with
    | zero =>
      simp only [flatten_from, hn, List.range_zero, List.map_nil, List.nil_append] at h
      exact ih (k + 1) p h
    | succ n =>
      simp only [flatten_from, hn, List.range_succ_eq_map, List.map_cons, List.cons_append,
        List.head?_cons, Option.some.injEq] at h
      rw [← h]

theorem count_zero_range (n : Nat) :
    ((List.range n).filter (fun j => decide (j = 0))).length = if n = 0 then 0 else 1 := by
  cases n with
  | zero => simp
  | succ n =>
    rw [List.range_succ_eq_map]
    simp [List.filter_cons, List.filter_map, List.filter_eq_nil_iff]

/-- C1: the traversal `for (it = cbegin(); it != cend(); ++it)` returns, for every request,
and visits in order exactly the index pairs, and the (topic, partition) values, of the
concatenation of every topic's partition list in topic order; the number of steps is the sum
of the partition counts, topic `i` contributes exactly as many steps as it has partitions
(none when it has none), and more fuel changes nothing. -/
theorem traversal_visits_concatenation (r : fetch_request) :
    ∃ steps, r.traversal = some steps ∧
      steps.map (fun v => (v.topic, v.partition)) = r.flatten.map (fun p => (p.1, some p.2)) ∧
      steps.map (deref r.topics) = r.flatten_values.map some ∧
      steps.length = r.partition_count ∧
      (∀ i : Fin r.topics.length,
        steps.countP (fun v => decide (v.topic = i.1)) = (r.topics.get i).partitions.length) ∧
      (∀ extra, r.traversal_fuel (r.partition_count + 1 + extra) = some steps) := by
  refine ⟨r.flatten.map value_at, traversal_spec r 0, ?_, ?_, ?_, ?_, traversal_spec r⟩
  · simp [value_at, Function.comp_def]
  · have := deref_flatten_from r.topics []
    simpa [flatten, flatten_values, Function.comp_def] using this
  · simp [flatten, length_flatten_from, partition_count]
  · intro i
    rw [List.countP_map, List.countP_eq_length_filter]
    have := filter_flatten_fin r i
    simp only [Function.comp_def, value_at]
    rw [this]
    simp

/-- C7: at every step of the traversal the flag `new_topic` is set exactly when the
partition cursor is at the first partition of its topic; it is set at the first step, and
it is set at exactly one step of every topic that has partitions (and at no step of a topic
that has none). -/
theorem new_topic_iff_first_partition (r : fetch_request) :
    ∃ steps, r.traversal = some steps ∧
      (∀ v ∈ steps, (v.new_topic = true ↔ v.partition = some 0)) ∧
      (∀ v, steps.head? = some v → v.new_topic = true) ∧
      (∀ i : Fin r.topics.length,
        steps.countP (fun v => v.new_topic && decide (v.topic = i.1))
          = if (r.topics.get i).partitions.length = 0 then 0 else 1) := by
  refine ⟨r.flatten.map value_at, traversal_spec r 0, ?_, ?_, ?_⟩
  · intro v hv
    obtain ⟨p, _, rfl⟩ := List.mem_map.mp hv
    simp [value_at]
  · intro v hv
    rw [List.head?_map] at hv
    cases hh : r.flatten.head? with
    | none => simp [hh] at hv
    | some p =>
      have h0 := head_flatten_from r.topics 0 p hh
      simp only [hh, Option.map_some', Option.some.injEq] at hv
      rw [← hv]
      simp [value_at, h0]
  · intro i
    rw [List.countP_map, List.countP_eq_length_filter]
    have h1 : List.filter ((fun v : value_type => v.new_topic && decide (v.topic = i.1)) ∘ value_at)
        r.flatten
        = List.filter (fun p => decide (p.2 = 0))
            (List.filter (fun p => decide (p.1 = i.1)) r.flatten) := by
      rw [List.filter_filter]
      apply List.filter_congr
      intro p _
      simp [value_at]
    rw [h1, filter_flatten_fin r i, List.filter_map, List.length_map]
    exact count_zero_range _

theorem advance_spec (r : fetch_request) :
    ∀ k, k ≤ r.partition_count →
      ∃ a, r.advance k = some a ∧ Good r.topics a ∧ rem_of r.topics a = r.flatten.drop k := by
  intro k
  induction k with
  | zero =>
    intro _
    obtain ⟨b, hb, hg, hrem⟩ := cbegin_spec r
    exact ⟨b, hb, hg, by simpa using hrem⟩
  | succ k ih =>
    intro hk
    obtain ⟨a, ha, hg, hrem⟩ := ih (by omega)
    have hlen : r.flatten.length = r.partition_count := by
      simp [flatten, length_flatten_from, partition_count]
    have hne : a.state_.topic ≠ r.topics.length := by
      intro h
      have h0 := (rem_of_nil_iff r.topics a hg).mpr h
      rw [hrem] at h0
      have := congrArg List.length h0
      simp at this
      omega
    obtain ⟨j, it1, _, hincr, hg1, _, _, hcons⟩ := incr_spec r.topics a hg hne
    refine ⟨it1, ?_, hg1, ?_⟩
    · simp [advance, ha, hincr]
    · have h1 : (rem_of r.topics a).tail = rem_of r.topics it1 := by rw [hcons]; rfl
      rw [← h1, hrem, List.tail_drop]

theorem eq_self (a : const_iterator) : eq a a = true := by
  simp [eq]

theorem rem_of_eq_of_eq (topics : List topic) (a b : const_iterator)
    (ha : a.t_end_ = topics.length) (h : eq a b = true) :
    rem_of topics a = rem_of topics b := by
  unfold eq at h
  by_cases h1 : a.state_.topic = b.state_.topic
  · by_cases h2 : a.state_.topic = a.t_end_
    · have hn : topics[a.state_.topic]? = none := by simp [h2, ha]
      have hn2 : topics[b.state_.topic]? = none := by rw [← h1]; exact hn
      simp [rem_of, remaining, hn, hn2]
    · simp only [h1, if_true] at h
      rw [← h1] at h
      simp only [h2, if_false, decide_eq_true_eq] at h
      simp [rem_of, h1, h]
  · simp [h1] at h

theorem advance_eq_cend_iff (r : fetch_request) (k : Nat) (hk : k ≤ r.partition_count) :
    ∃ a, r.advance k = some a ∧
      (eq a ⟨⟨true, r.topics.length, none⟩, r.topics.length⟩ = true
        ↔ k = r.partition_count) := by
  obtain ⟨a, ha, hga, hra⟩ := advance_spec r k hk
  have hlen : r.flatten.length = r.partition_count := by
    simp [flatten, length_flatten_from,
      partition_count]
  refine ⟨a, ha, ?_, ?_⟩
  · intro h
    have h1 := rem_of_eq_of_eq r.topics a _ hga.1 h
    rw [hra] at h1
    have h2 : rem_of r.topics ⟨⟨true, r.topics.length, none⟩, r.topics.length⟩
        = [] := by
      simp [rem_of, remaining]
    rw [h2] at h1
    have := congrArg List.length h1
    simp only [List.length_drop, List.length_nil] at this
    omega
  · intro h
    have h0 : rem_of r.topics a = [] := by
      rw [hra]
      apply List.drop_eq_nil_of_le
      omega
    have h1 := (rem_of_nil_iff r.topics a hga).mp h0
    simp [eq, h1, hga.1]

/-- C8: two iterators reached from `cbegin()` by `i` and by `j` increments, `i` and `j` at
most the number of partitions, compare equal exactly when `i = j`, and `operator!=` is the
negation; the iterator equals `cend()` after exactly as many increments as there are
partitions and not earlier; two iterators at end compare equal whatever their partition
cursors and flags are. -/
theorem iterator_eq_iff_same_position (r : fetch_request) (i j : Nat)
    (hi : i ≤ r.partition_count) (hj : j ≤ r.partition_count) :
    ∃ a b e, r.advance i = some a ∧ r.advance j = some b ∧ r.cend = some e ∧
      (eq a b = true ↔ i = j) ∧ ne a b = !(eq a b) ∧
      (eq a e = true ↔ i = r.partition_count) ∧
      (∀ (f g : Bool) (p q : Option Nat),
        eq ⟨⟨f, r.topics.length, p⟩, r.topics.length⟩ ⟨⟨g, r.topics.length, q⟩, r.topics.length⟩
          = true) := by
  obtain ⟨a, ha, hga, hra⟩ := advance_spec r i hi
  obtain ⟨b, hb, hgb, hrb⟩ := advance_spec r j hj
  have hlen : r.flatten.length = r.partition_count := by
    simp [flatten, length_flatten_from, partition_count]
  refine ⟨a, b, _, ha, hb, cend_eq r, ?_, rfl, ?_, ?_⟩
  · constructor
    · intro h
      have h1 := rem_of_eq_of_eq r.topics a b hga.1 h
      rw [hra, hrb] at h1
      have := congrArg List.length h1
      simp only [List.length_drop] at this
      omega
    · intro h
      subst h
      rw [ha] at hb
      cases hb
      exact eq_self a
  · obtain ⟨a1, ha1, hiff⟩ := advance_eq_cend_iff r i hi
    rw [ha] at ha1
    cases ha1
    exact hiff
  · intro f g p q
    simp [eq]

/-- Witness of `iterator_eq_iff_same_position`: the sample request after one and after
three increments. -/
theorem iterator_eq_iff_same_position_witness :
    (1 ≤ sample_request.partition_count ∧ 3 ≤ sample_request.partition_count) ∧
      ∃ a b e, sample_request.advance 1 = some a ∧ sample_request.advance 3 = some b ∧
        sample_request.cend = some e ∧
        (eq a b = true ↔ 1 = 3) ∧ ne a b = !(eq a b) ∧
        (eq a e = true ↔ 1 = sample_request.partition_count) ∧
        (∀ (f g : Bool) (p q : Option Nat),
          eq ⟨⟨f, sample_request.topics.length, p⟩, sample_request.topics.length⟩
            ⟨⟨g, sample_request.topics.length, q⟩, sample_request.topics.length⟩ = true) :=
  ⟨⟨by decide, by decide⟩,
    iterator_eq_iff_same_position sample_request 1 3 (by decide) (by decide)⟩

end fetch_request
end kafka

namespace kafka

/-! ## The response iterator follows the request iterator -/

theorem same_shape_length {topics : List fetch_request.topic}
    {parts : List fetch_response.partition} (h : same_shape topics parts) :
    topics.length = parts.length := by
  have := congrArg List.length h
  simpa using this

theorem same_shape_getElem? {topics : List fetch_request.topic}
    {parts : List fetch_response.partition} (h : same_shape topics parts) (i : Nat) :
    (topics[i]?).map (fun t => t.partitions.length)
      = (parts[i]?).map (fun g => g.responses.length) := by
  have := congrArg (fun l : List Nat => l[i]?) h
  simpa [List.getElem?_map] using this

theorem same_shape_shape_of (parts : List fetch_response.partition) :
    same_shape (shape_of parts) parts := by
  simp [same_shape, shape_of, Function.comp_def]

theorem normalize_loop_sim {topics : List fetch_request.topic}
    {parts : List fetch_response.partition} (h : same_shape topics parts) :
    ∀ (fuel : Nat) (it : fetch_request.const_iterator),
      fetch_response.iterator.normalize_loop parts fuel (to_response_iterator it)
        = (fetch_request.const_iterator.normalize_loop topics fuel it).map
            to_response_iterator := by
  intro fuel
  induction fuel with
  | zero => intro it; rfl
  | succ fuel ih =>
    intro it
    have hs := same_shape_getElem? h it.state_.topic
    rw [fetch_response.iterator.normalize_loop, fetch_request.const_iterator.normalize_loop]
    simp only [to_response_iterator]
    cases ht : topics[it.state_.topic]? with
    | none =>
      cases hg : parts[it.state_.topic]? with
      | none => rfl
      | some g => simp [ht, hg] at hs
    | some t =>
      cases hg : parts[it.state_.topic]? with
      | none => simp [ht, hg] at hs
      | some g =>
        have hlen : t.partitions.length = g.responses.length := by
          simpa [ht, hg] using hs
        simp only [hlen]
        by_cases hp : it.state_.partition = some g.responses.length
        · simp only [hp, if_true]
          by_cases he : it.state_.topic + 1 = it.t_end_
          · simp [he, to_response_iterator]
          · simp only [ne_eq, he, not_false_eq_true, if_true]
            exact ih ⟨⟨true, it.state_.topic + 1, some 0⟩, it.t_end_⟩
        · simp [hp, to_response_iterator]

theorem normalize_sim {topics : List fetch_request.topic}
    {parts : List fetch_response.partition} (h : same_shape topics parts)
    (it : fetch_request.const_iterator) :
    fetch_response.iterator.normalize parts (to_response_iterator it)
      = (fetch_request.const_iterator.normalize topics it).map to_response_iterator := by
  unfold fetch_response.iterator.normalize fetch_request.const_iterator.normalize
  rw [← same_shape_length h]
  exact normalize_loop_sim h _ it

theorem mk_iterator_sim {topics : List fetch_request.topic}
    {parts : List fetch_response.partition} (h : same_shape topics parts) (b e : Nat) :
    fetch_response.iterator.mk_iterator parts b e
      = (fetch_request.const_iterator.mk_iterator topics b e).map to_response_iterator := by
  unfold fetch_response.iterator.mk_iterator fetch_request.const_iterator.mk_iterator
  have hs := same_shape_getElem? h b
  by_cases hbe : b = e
  · simp [hbe, to_response_iterator]
  · simp only [ne_eq, hbe, not_false_eq_true, if_true]
    cases ht : topics[b]? with
    | none =>
      cases hg : parts[b]? with
      | none => rfl
      | some g => simp [ht, hg] at hs
    | some t =>
      cases hg : parts[b]? with
      | none => simp [ht, hg] at hs
      | some g => exact normalize_sim h ⟨⟨true, b, some 0⟩, e⟩

theorem incr_sim {topics : List fetch_request.topic}
    {parts : List fetch_response.partition} (h : same_shape topics parts)
    (it : fetch_request.const_iterator) :
    fetch_response.iterator.incr parts (to_response_iterator it)
      = (fetch_request.const_iterator.incr topics it).map to_response_iterator := by
  unfold fetch_response.iterator.incr fetch_request.const_iterator.incr
  cases hp : it.state_.partition with
  | none => simp [to_response_iterator, hp]
  | some j =>
    simp only [to_response_iterator, hp]
    exact normalize_sim h ⟨⟨false, it.state_.topic, some (j + 1)⟩, it.t_end_⟩

theorem eq_sim (a b : fetch_request.const_iterator) :
    fetch_response.iterator.eq (to_response_iterator a) (to_response_iterator b)
      = fetch_request.const_iterator.eq a b := rfl

theorem ne_sim (a b : fetch_request.const_iterator) :
    fetch_response.iterator.ne (to_response_iterator a) (to_response_iterator b)
      = fetch_request.const_iterator.ne a b := rfl

theorem traversal_loop_sim {topics : List fetch_request.topic}
    {parts : List fetch_response.partition} (h : same_shape topics parts)
    (e : fetch_request.const_iterator) :
    ∀ (fuel : Nat) (it : fetch_request.const_iterator),
      fetch_response.traversal_loop parts (to_response_iterator e) fuel (to_response_iterator it)
        = (fetch_request.traversal_loop topics e fuel it).map (List.map to_response_value) := by
  intro fuel
  induction fuel with
  | zero => intro it; rfl
  | succ fuel ih =>
    intro it
    rw [fetch_response.traversal_loop, fetch_request.traversal_loop, ne_sim, incr_sim h]
    by_cases hne : fetch_request.const_iterator.ne it e = true
    · simp only [hne, if_true]
      cases hi : fetch_request.const_iterator.incr topics it with
      | none => rfl
      | some it1 =>
        simp only [Option.map_some', ih it1]
        cases fetch_request.traversal_loop topics e fuel it1 with
        | none => rfl
        | some vs => rfl
    · simp [hne]

theorem traversal_fuel_sim {req : fetch_request} {resp : fetch_response}
    (h : same_shape req.topics resp.partitions) (fuel : Nat) :
    resp.traversal_fuel fuel = (req.traversal_fuel fuel).map (List.map to_response_value) := by
  unfold fetch_response.traversal_fuel fetch_request.traversal_fuel
    fetch_response.begin fetch_response.end_ fetch_request.cbegin fetch_request.cend
  rw [← same_shape_length h, mk_iterator_sim h, mk_iterator_sim h]
  cases fetch_request.const_iterator.mk_iterator req.topics 0 req.topics.length with
  | none => rfl
  | some b =>
    cases fetch_request.const_iterator.mk_iterator req.topics req.topics.length
        req.topics.length with
    | none => rfl
    | some e => exact traversal_loop_sim h e fuel b

theorem advance_sim {req : fetch_request} {resp : fetch_response}
    (h : same_shape req.topics resp.partitions) :
    ∀ k, resp.advance k = (req.advance k).map to_response_iterator := by
  intro k
  induction k with
  | zero =>
    unfold fetch_response.advance fetch_request.advance fetch_response.begin
      fetch_request.cbegin
    rw [← same_shape_length h, mk_iterator_sim h]
  | succ k ih =>
    rw [fetch_response.advance, fetch_request.advance, ih]
    cases req.advance k with
    | none => rfl
    | some it => exact incr_sim h it

/-! ## The response iterator -/

namespace fetch_response
open iterator

theorem flatten_from_shape_of (gs : List partition) :
    ∀ k, fetch_request.flatten_from k (shape_of gs) = flatten_from k gs := by
  induction gs with
  | nil => intro k; rfl
  | cons g gs ih =>
    intro k
    have := ih (k + 1)
    simp only [shape_of] at this
    simp [shape_of, fetch_request.flatten_from, flatten_from, this]

theorem partition_count_request_of_shape (r : fetch_response) :
    (request_of_shape r).partition_count = r.response_count := by
  simp [request_of_shape, fetch_request.partition_count, response_count, shape_of,
    Function.comp_def]

theorem response_traversal_spec (r : fetch_response) (extra : Nat) :
    r.traversal_fuel (r.response_count + 1 + extra) = some (r.flatten.map value_at) := by
  have hs : same_shape (request_of_shape r).topics r.partitions :=
    same_shape_shape_of r.partitions
  rw [traversal_fuel_sim hs, ← partition_count_request_of_shape,
    fetch_request.traversal_spec (request_of_shape r) extra]
  simp only [Option.map_some', List.map_map, fetch_request.flatten, request_of_shape,
    flatten_from_shape_of, flatten]
  rfl

theorem response_deref_flatten_from (gs : List partition) :
    ∀ (pre : List partition),
      (flatten_from pre.length gs).map (fun p => deref (pre ++ gs) (value_at p))
        = (gs.flatMap (fun g => g.responses.map (fun p => (g, p)))).map some := by
  induction gs with
  | nil => intro pre; simp [flatten_from]
  | cons g gs ih =>
    intro pre
    have hrec := ih (pre ++ [g])
    simp only [List.length_append, List.length_singleton, List.append_assoc,
      List.singleton_append] at hrec
    simp only [flatten_from, List.map_append, List.map_map, List.flatMap_cons, hrec]
    congr 1
    have hg : (pre ++ g :: gs)[pre.length]? = some g := by
      rw [List.getElem?_append_right (le_refl _)]
      simp
    have key : List.map (some ∘ fun p => (g, p)) g.responses
        = List.map (fun j => (g.responses[j]?).map (fun p => (g, p)))
            (List.range g.responses.length) := by
      have := congrArg (List.map (Option.map (fun p : partition_response => (g, p))))
        (fetch_request.map_getElem?_range g.responses)
      simp only [List.map_map] at this
      exact this.symm
    rw [key]
    apply List.map_congr_left
    intro j _
    simp only [Function.comp, deref, value_at, hg]
    cases g.responses[j]? <;> rfl

theorem response_filter_flatten_fin (r : fetch_response) (i : Fin r.partitions.length) :
    r.flatten.filter (fun p => decide (p.1 = i.1))
      = (List.range (r.partitions.get i).responses.length).map (fun j => (i.1, j)) := by
  rw [flatten, ← flatten_from_shape_of, fetch_request.filter_flatten_from]
  simp [shape_of, List.getElem?_eq_getElem i.2]

theorem advance_eq_end_iff (r : fetch_response) (k : Nat) (hk : k ≤ r.response_count) :
    ∃ a e, r.advance k = some a ∧ r.end_ = some e ∧
      (iterator.eq a e = true ↔ k = r.response_count) := by
  have hs : same_shape (request_of_shape r).topics r.partitions :=
    same_shape_shape_of r.partitions
  obtain ⟨a, ha, hiff⟩ :=
    fetch_request.advance_eq_cend_iff (request_of_shape r) k (by rw [partition_count_request_of_shape]; exact hk)
  refine ⟨to_response_iterator a, to_response_iterator
    ⟨⟨true, (request_of_shape r).topics.length, none⟩, (request_of_shape r).topics.length⟩,
    ?_, ?_, ?_⟩
  · rw [advance_sim hs, ha]; rfl
  · unfold end_
    rw [← same_shape_length hs, mk_iterator_sim hs]
    have := fetch_request.cend_eq (request_of_shape r)
    unfold fetch_request.cend at this
    rw [this]; rfl
  · rw [eq_sim, hiff, partition_count_request_of_shape]

/-- C9: the traversal `for (it = begin(); it != end(); ++it)` returns, for every response,
and visits in order exactly the index pairs, and the (group, partition_response) slots, of
the concatenation of every group's responses list in group order; a group contributes
exactly as many steps as it has responses (none when it has none), more fuel changes
nothing, and the iterator equals `end()` after exactly as many increments as there are
partition responses and after no smaller number. -/
theorem response_traversal_visits_concatenation (r : fetch_response) :
    ∃ steps, r.traversal = some steps ∧
      steps.map (fun v => (v.partition, v.partition_response))
        = r.flatten.map (fun p => (p.1, some p.2)) ∧
      steps.map (deref r.partitions) = r.flatten_values.map some ∧
      steps.length = r.response_count ∧
      (∀ i : Fin r.partitions.length,
        steps.countP (fun v => decide (v.partition = i.1))
          = (r.partitions.get i).responses.length) ∧
      (∀ extra, r.traversal_fuel (r.response_count + 1 + extra) = some steps) ∧
      (∃ a e, r.advance r.response_count = some a ∧ r.end_ = some e ∧ eq a e = true) ∧
      (∀ k : Fin r.response_count,
        ∃ a e, r.advance k.1 = some a ∧ r.end_ = some e ∧ eq a e = false) := by
  refine ⟨r.flatten.map value_at, response_traversal_spec r 0, ?_, ?_, ?_, ?_, response_traversal_spec r, ?_, ?_⟩
  · simp [value_at, Function.comp_def]
  · have := response_deref_flatten_from r.partitions []
    simpa [flatten, flatten_values, Function.comp_def] using this
  · rw [List.length_map, flatten, ← flatten_from_shape_of, fetch_request.length_flatten_from]
    simp [shape_of, response_count, Function.comp_def]
  · intro i
    rw [List.countP_map, List.countP_eq_length_filter]
    have := response_filter_flatten_fin r i
    simp only [Function.comp_def, value_at]
    rw [this]
    simp
  · obtain ⟨a, e, ha, he, hiff⟩ := advance_eq_end_iff r r.response_count (le_refl _)
    exact ⟨a, e, ha, he, hiff.mpr rfl⟩
  · intro k
    obtain ⟨a, e, ha, he, hiff⟩ := advance_eq_end_iff r k.1 (Nat.le_of_lt k.2)
    refine ⟨a, e, ha, he, ?_⟩
    cases hq : eq a e with
    | false => rfl
    | true => exact absurd (hiff.mp hq) (Nat.ne_of_lt k.2)

end fetch_response

end kafka

namespace kafka
namespace op_context

/-! ## The fetch operation context -/

theorem empty_iff (r : fetch_request) :
    r.empty = true ↔ (r.topics = [] ∨ ∀ t ∈ r.topics, t.partitions = []) := by
  simp [fetch_request.empty, List.isEmpty_iff]

theorem debounce_delay_isSome (r : fetch_request) :
    r.debounce_delay.isSome = false ↔ r.max_wait_time ≤ 0 := by
  unfold fetch_request.debounce_delay
  by_cases h : r.max_wait_time ≤ 0 <;> simp [h]

/-- C2: with the deadline set, `should_stop_fetch()` is true exactly when the wait time is
not positive, or `over_min_bytes()` holds, or the request has no topics or only topics
without partitions, or an error was recorded, or the deadline is at or before the current
time; otherwise it is false. -/
theorem should_stop_fetch_iff (c : op_context) (now d : Int) (hd : c.deadline = some d) :
    (c.should_stop_fetch now = true ↔
      (c.request.max_wait_time ≤ 0 ∨ c.over_min_bytes = true ∨
        (c.request.topics = [] ∨ ∀ t ∈ c.request.topics, t.partitions = []) ∨
        c.response_error = true ∨ d ≤ now)) ∧
    (¬ (c.request.max_wait_time ≤ 0 ∨ c.over_min_bytes = true ∨
        (c.request.topics = [] ∨ ∀ t ∈ c.request.topics, t.partitions = []) ∨
        c.response_error = true ∨ d ≤ now) → c.should_stop_fetch now = false) := by
  have key : c.should_stop_fetch now = true ↔
      (c.request.max_wait_time ≤ 0 ∨ c.over_min_bytes = true ∨
        (c.request.topics = [] ∨ ∀ t ∈ c.request.topics, t.partitions = []) ∨
        c.response_error = true ∨ d ≤ now) := by
    unfold should_stop_fetch
    rw [hd]
    simp only [Bool.or_eq_true, Bool.not_eq_true', debounce_delay_isSome, empty_iff,
      optional_le, decide_eq_true_eq]
    tauto
  refine ⟨key, ?_⟩
  intro h
  cases hs : c.should_stop_fetch now with
  | false => rfl
  | true => exact absurd (key.mp hs) h

/-- Witness of `should_stop_fetch_iff`: the sample request with 0 bytes collected and the
deadline 10 ticks ahead. -/
theorem should_stop_fetch_iff_witness :
    (fresh fetch_request.sample_request 0 (some 10)).deadline = some 10 ∧
      (fresh fetch_request.sample_request 0 (some 10)).should_stop_fetch 0 = false :=
  ⟨rfl, (should_stop_fetch_iff (fresh fetch_request.sample_request 0 (some 10)) 0 10 rfl).2
    (by decide)⟩


theorem to_int32_of_lt (n : Nat) (h : n < 2 ^ 31) : to_int32 n = (n : Int) := by
  unfold to_int32
  have h1 : n % 2 ^ 32 = n := Nat.mod_eq_of_lt (by omega)
  rw [h1, if_pos h]

theorem over_min_bytes_of_lt (c : op_context) (h : c.response_size < 2 ^ 31) :
    c.over_min_bytes = true ↔ c.request.min_bytes ≤ (c.response_size : Int) := by
  simp [over_min_bytes, to_int32_of_lt _ h]

/-- C3, at the failing input: with `response_size = 2^31` (a `size_t` value) and
`min_bytes = 1` (an `int32` value) the response size is at least `min_bytes` as integers,
but the narrowing cast makes `over_min_bytes()` false. -/
theorem over_min_bytes_truncates :
    large_response_context.response_size = 2 ^ 31 ∧
      large_response_context.request.min_bytes = 1 ∧
      large_response_context.request.min_bytes ≤ (large_response_context.response_size : Int) ∧
      to_int32 large_response_context.response_size = -2 ^ 31 ∧
      large_response_context.over_min_bytes = false := by
  refine ⟨rfl, rfl, by decide, by decide, by decide⟩

/-- The debounce decision where the accumulated size fits an `int32`: with
`1 ≤ B ≤ 2^31 - 1`, a positive wait time, a request with a partition, no error and the
deadline `d`, the context waits at `B - 1` bytes before the deadline, and stops once the size
is in `[B, 2^31)` or the deadline is reached. -/
theorem debounce_within_int32 (c : op_context) (now d : Int)
    (hB : 1 ≤ c.request.min_bytes) (hW : 0 < c.request.max_wait_time)
    (hne : c.request.empty = false) (herr : c.response_error = false)
    (hd : c.deadline = some d) :
    (((c.response_size : Int) = c.request.min_bytes - 1 → c.request.min_bytes ≤ 2 ^ 31 - 1 →
        now < d → c.should_stop_fetch now = false) ∧
      (c.request.min_bytes ≤ (c.response_size : Int) → c.response_size < 2 ^ 31 →
        c.should_stop_fetch now = true) ∧
      (d ≤ now → c.should_stop_fetch now = true)) := by
  have hdeb : c.request.debounce_delay.isSome = true := by
    unfold fetch_request.debounce_delay
    have : ¬ c.request.max_wait_time ≤ 0 := by omega
    simp [this]
  refine ⟨?_, ?_, ?_⟩
  · intro hs hB2 hnow
    have hlt : c.response_size < 2 ^ 31 := by
      have : (c.response_size : Int) < 2 ^ 31 := by omega
      exact_mod_cast this
    have hover : c.over_min_bytes = false := by
      cases ho : c.over_min_bytes with
      | false => rfl
      | true =>
        have := (over_min_bytes_of_lt c hlt).mp ho
        omega
    have hdl : optional_le c.deadline now = false := by
      rw [hd]
      simp [optional_le, hnow]
    simp [should_stop_fetch, hdeb, hover, hne, herr, hdl]
  · intro hge hlt
    have hover := (over_min_bytes_of_lt c hlt).mpr hge
    simp [should_stop_fetch, hover]
  · intro hle
    have hdl : optional_le c.deadline now = true := by
      rw [hd]
      simp [optional_le, hle]
    simp [should_stop_fetch, hdl]

/-- C4, at the failing input: `min_bytes = 1`, `max_wait_time = 100`, a request with
partitions, no error, the deadline (tick 10) after the current time (tick 0) and
`response_size = 2^31`, which is at least `min_bytes`; `should_stop_fetch()` is false. -/
theorem should_stop_fetch_misses_large_response :
    large_response_context.request.min_bytes = 1 ∧
      0 < large_response_context.request.max_wait_time ∧
      large_response_context.request.empty = false ∧
      large_response_context.response_error = false ∧
      large_response_context.deadline = some 10 ∧
      large_response_context.request.min_bytes ≤ (large_response_context.response_size : Int) ∧
      large_response_context.should_stop_fetch 0 = false := by
  refine ⟨rfl, by decide, by decide, rfl, rfl, by decide, by decide⟩

/-- C10: whenever `max_wait_time ≤ 0`, `should_stop_fetch()` is true whatever the other
fields and the current time are; the request of the scenario (topics
`[("t0", [p0, p1]), ("t1", [])]`, `min_bytes = 1`, `max_wait_time = 0`) is such a request,
and its traversal yields exactly the two partitions of `t0` and no step for `t1`. -/
theorem no_debounce_stops_first_pass :
    (∀ (c : op_context) (now : Int), c.request.max_wait_time ≤ 0 →
      c.should_stop_fetch now = true) ∧
    (fetch_request.scenario_request.max_wait_time = 0 ∧
      fetch_request.scenario_request.min_bytes = 1 ∧
      fetch_request.scenario_request.topics.map (fun t => (t.name, t.partitions.length))
        = [("t0", 2), ("t1", 0)]) ∧
    (∀ (c : op_context) (now : Int), c.request = fetch_request.scenario_request →
      c.should_stop_fetch now = true) ∧
    fetch_request.scenario_request.traversal
      = some [⟨true, 0, some 0⟩, ⟨false, 0, some 1⟩] ∧
    (∃ t0 p0 p1, fetch_request.scenario_request.topics[0]? = some t0 ∧
      t0.partitions = [p0, p1] ∧
      [(⟨true, 0, some 0⟩ : fetch_request.value_type), ⟨false, 0, some 1⟩].map
          (fetch_request.const_iterator.deref fetch_request.scenario_request.topics)
        = [some (t0, p0), some (t0, p1)]) := by
  have key : ∀ (c : op_context) (now : Int), c.request.max_wait_time ≤ 0 →
      c.should_stop_fetch now = true := by
    intro c now h
    have := (debounce_delay_isSome c.request).mpr h
    simp [should_stop_fetch, this]
  refine ⟨key, ⟨rfl, rfl, by decide⟩, ?_, by decide, ?_⟩
  · intro c now h
    apply key
    rw [h]
    decide
  · exact ⟨_, _, _, rfl, rfl, by decide⟩

/-- Witness of `no_debounce_stops_first_pass`: a fresh context of the scenario request, no
deadline, at tick 0. -/
theorem no_debounce_stops_first_pass_witness :
    (fresh fetch_request.scenario_request 0 none).request.max_wait_time ≤ 0 ∧
      (fresh fetch_request.scenario_request 0 none).should_stop_fetch 0 = true :=
  ⟨by decide, no_debounce_stops_first_pass.1 (fresh fetch_request.scenario_request 0 none) 0
    (by decide)⟩

end op_context
end kafka

namespace kafka
namespace op_context
open fetch_request

/-! ## Response placeholders -/

theorem with_groups_self (c : op_context) : with_groups c c.response.partitions = c := rfl

theorem with_groups_with_groups (c : op_context) (a b : List fetch_response.partition) :
    with_groups (with_groups c a) b = with_groups c b := rfl

theorem place_all_append (topics : List topic) (l1 l2 : List (Nat × Nat)) :
    ∀ c, place_all topics (l1 ++ l2) c
      = (match place_all topics l1 c with
          | none => none
          | some c1 => place_all topics l2 c1) := by
  induction l1 with
  | nil => intro c; rfl
  | cons p ps ih =>
    intro c
    simp only [List.cons_append, place_all]
    cases const_iterator.deref topics (value_at p) with
    | none => rfl
    | some tq =>
      obtain ⟨t, q⟩ := tq
      simp only
      cases start_response_partition
          (if (value_at p).new_topic then start_response_topic c t else c) q with
      | none => rfl
      | some c2 => exact ih c2

theorem create_loop_eq_place_all (topics : List topic) :
    ∀ (fuel : Nat) (it : const_iterator) (c : op_context), Good topics it →
      (rem_of topics it).length < fuel →
      create_response_placeholders_loop topics ⟨⟨true, topics.length, none⟩, topics.length⟩
          fuel it c
        = place_all topics (rem_of topics it) c := by
  intro fuel
  induction fuel with
  | zero => intro it c _ h; omega
  | succ fuel ih =>
    intro it c hg hlen
    rw [create_response_placeholders_loop, ne_cend topics it hg]
    by_cases h : it.state_.topic = topics.length
    · simp [h, (rem_of_nil_iff topics it hg).mpr h, place_all]
    · obtain ⟨j, it1, hp, hincr, hg1, hnt, _, hrem⟩ := incr_spec topics it hg h
      have hlen1 : (rem_of topics it1).length < fuel := by
        rw [hrem] at hlen
        simpa using hlen
      have hv := value_at_of it j hp hnt
      rw [hrem, place_all, ← hv]
      simp only [ne_eq, h, not_false_eq_true, decide_True, if_true, hincr]
      cases const_iterator.deref topics it.state_ with
      | none => rfl
      | some tq =>
        obtain ⟨t, q⟩ := tq
        simp only
        cases start_response_partition
            (if it.state_.new_topic = true then start_response_topic c t else c) q with
        | none => rfl
        | some c2 => exact ih it1 c2 hg1 hlen1


theorem deref_value_at (pre ts : List topic) (t : topic) (j : Nat)
    (hj : j < t.partitions.length) :
    const_iterator.deref (pre ++ t :: ts) (value_at (pre.length, j))
      = some (t, t.partitions[j]) := by
  have ht : (pre ++ t :: ts)[pre.length]? = some t := by
    rw [List.getElem?_append_right (le_refl _)]
    simp
  simp [const_iterator.deref, value_at, ht, List.getElem?_eq_getElem hj]

theorem start_response_partition_last (c : op_context) (base : List fetch_response.partition)
    (g : fetch_response.partition) (q : fetch_request.partition)
    (hc : c.response.partitions = base ++ [g]) :
    start_response_partition c q
      = some (with_groups c (base ++ [{ g with responses := g.responses ++ [placeholder q] }])) := by
  simp [start_response_partition, hc]

theorem place_all_within (pre ts : List topic) (t : topic) :
    ∀ (n j : Nat) (c : op_context) (base : List fetch_response.partition),
      0 < j → j + n ≤ t.partitions.length →
      c.response.partitions = base ++ [mirror_upto t j] →
      place_all (pre ++ t :: ts) ((List.range' j n).map (fun k => (pre.length, k))) c
        = some (with_groups c (base ++ [mirror_upto t (j + n)])) := by
  intro n
  induction n with
  | zero =>
    intro j c base _ _ hc
    simp only [List.range'_zero, List.map_nil, place_all, Nat.add_zero]
    rw [← hc, with_groups_self]
  | succ n ih =>
    intro j c base hj hle hc
    have hjt : j < t.partitions.length := by omega
    have hnew : (value_at (pre.length, j)).new_topic = false := by
      simp [value_at]; omega
    rw [List.range'_succ, List.map_cons, place_all, deref_value_at pre ts t j hjt]
    simp only [hnew, Bool.false_eq_true, if_false]
    rw [start_response_partition_last c base (mirror_upto t j) _ hc]
    have hstep : ({ mirror_upto t j with
        responses := (mirror_upto t j).responses ++ [placeholder t.partitions[j]] } :
          fetch_response.partition) = mirror_upto t (j + 1) := by
      have ht : t.partitions.take (j + 1) = t.partitions.take j ++ [t.partitions[j]] := by
        rw [List.take_succ, List.getElem?_eq_getElem hjt]
        rfl
      simp only [mirror_upto, ht, List.map_append, List.map_cons, List.map_nil]
    simp only [hstep]
    rw [ih (j + 1) _ base (by omega) (by omega) rfl, with_groups_with_groups]
    have : j + 1 + n = j + (n + 1) := by omega
    rw [this]

theorem place_all_topic (pre ts : List topic) (t : topic) (c : op_context) :
    place_all (pre ++ t :: ts) ((List.range t.partitions.length).map (fun k => (pre.length, k))) c
      = some (if t.partitions.length = 0 then c
          else with_groups c (c.response.partitions ++ [mirror t])) := by
  cases hn : t.partitions.length with
  | zero => simp [place_all]
  | succ n =>
    have h0 : 0 < t.partitions.length := by omega
    rw [List.range_eq_range', List.range'_succ, List.map_cons, place_all,
      deref_value_at pre ts t 0 h0]
    have hnew : (value_at (pre.length, 0)).new_topic = true := by simp [value_at]
    simp only [hnew, if_true]
    rw [start_response_partition_last (start_response_topic c t) c.response.partitions
      ⟨t.name, []⟩ _ rfl]
    have hstep : ({ (⟨t.name, []⟩ : fetch_response.partition) with
        responses := ([] : List fetch_response.partition_response)
          ++ [placeholder t.partitions[0]] } :
          fetch_response.partition) = mirror_upto t 1 := by
      have ht : t.partitions.take 1 = [t.partitions[0]] := by
        rw [List.take_succ, List.getElem?_eq_getElem h0]
        rfl
      simp only [mirror_upto, ht, List.map_cons, List.map_nil, List.nil_append]
    simp only [hstep]
    rw [place_all_within pre ts t n 1 _ c.response.partitions (by omega) (by omega) rfl]
    have hfull : mirror_upto t (1 + n) = mirror t := by
      have : 1 + n = t.partitions.length := by omega
      simp [mirror_upto, mirror, this]
    simp [hfull, start_response_topic, with_groups_with_groups]

theorem place_all_flatten_from (ts : List topic) :
    ∀ (pre : List topic) (c : op_context),
      place_all (pre ++ ts) (flatten_from pre.length ts) c
        = some (with_groups c (c.response.partitions
            ++ (ts.filter (fun t => !t.partitions.isEmpty)).map mirror)) := by
  induction ts with
  | nil =>
    intro pre c
    simp [flatten_from, place_all, with_groups_self]
  | cons t ts ih =>
    intro pre c
    rw [flatten_from, place_all_append, place_all_topic]
    have hrec := ih (pre ++ [t])
    simp only [List.length_append, List.length_singleton, List.append_assoc,
      List.singleton_append] at hrec
    simp only [hrec]
    by_cases h0 : t.partitions.length = 0
    · have : t.partitions = [] := List.length_eq_zero.mp h0
      simp [h0, this]
    · have : t.partitions ≠ [] := fun h => h0 (by simp [h])
      simp [h0, this, with_groups, List.isEmpty_iff]


/-- C6, counterexample: for the request of the scenario, whose second topic has no
partition, the placeholders form a response with one group only (`"t0"`, two partition
responses); the response does not have the two topics of the request. -/
theorem placeholders_omit_empty_topic :
    ∃ c1, create_response_placeholders (fresh scenario_request 0 none) = some c1 ∧
      scenario_request.topics.map (fun t => (t.name, t.partitions.length))
        = [("t0", 2), ("t1", 0)] ∧
      c1.response.partitions.map (fun g => (g.name, g.responses.length)) = [("t0", 2)] ∧
      ¬ mirrors scenario_request c1.response := by
  refine ⟨_, rfl, by decide, by decide, ?_⟩
  unfold mirrors
  decide

/-- C6, amended: the placeholders created from a request are, appended to the groups the
response already holds (none in a fresh context), exactly one group per topic that has at
least one partition, in request order; the group of such a topic has the topic's name and
exactly one partition response per partition of the topic, in request order.  Topics
without partitions get no group. -/
theorem placeholders_mirror_topics_with_partitions (c : op_context) :
    ∃ c1, create_response_placeholders c = some c1 ∧
      c1.request = c.request ∧
      c1.response.partitions
        = c.response.partitions
          ++ (c.request.topics.filter (fun t => !t.partitions.isEmpty)).map mirror ∧
      (∀ t : topic, (mirror t).name = t.name ∧
        (mirror t).responses.length = t.partitions.length ∧
        (mirror t).responses.map (fun p => p.id) = t.partitions.map (fun p => p.id)) := by
  obtain ⟨b, hb, hg, hrem⟩ := cbegin_spec c.request
  have hlen : (rem_of c.request.topics b).length < c.request.partition_count + 1 := by
    rw [hrem, flatten, length_flatten_from, partition_count]
    omega
  have hrun : create_response_placeholders c
      = some (with_groups c (c.response.partitions
          ++ (c.request.topics.filter (fun t => !t.partitions.isEmpty)).map mirror)) := by
    simp only [create_response_placeholders, hb, cend_eq]
    rw [create_loop_eq_place_all c.request.topics _ b c hg hlen, hrem, flatten]
    exact place_all_flatten_from c.request.topics [] c
  refine ⟨_, hrun, rfl, rfl, ?_⟩
  intro t
  simp [mirror, placeholder, Function.comp_def]

end op_context
end kafka

namespace kafka
namespace protocol
namespace connection_context

variable {R : Type}

/-! ## Ordered emission of responses -/

theorem erase_cons (m : List (Nat × R)) (k1 k : Nat) (r : R) :
    erase ((k1, r) :: m) k = if k1 = k then erase m k else (k1, r) :: erase m k := by
  by_cases h : k1 = k <;> simp [erase, List.filter_cons, h]

theorem find_erase (m : List (Nat × R)) (k i : Nat) :
    find (erase m k) i = if i = k then none else find m i := by
  induction m with
  | nil => simp [erase, find]
  | cons e m ih =>
    obtain ⟨k1, r⟩ := e
    rw [erase_cons]
    by_cases h1 : k1 = k
    · subst h1
      simp only [if_true, ih, find]
      by_cases h2 : i = k1
      · simp [h2]
      · have : ¬ k1 = i := fun h => h2 h.symm
        simp [h2, this]
    · simp only [h1, if_false, find, ih]
      by_cases h2 : i = k
      · subst h2
        simp [h1]
      · simp [h2]

theorem length_erase_lt (m : List (Nat × R)) (k : Nat) (r : R) (h : find m k = some r) :
    (erase m k).length < m.length := by
  induction m with
  | nil => simp [find] at h
  | cons e m ih =>
    obtain ⟨k1, r1⟩ := e
    rw [erase_cons]
    by_cases h1 : k1 = k
    · simp only [h1, if_true, List.length_cons]
      exact Nat.lt_succ_of_le (List.length_filter_le _ _)
    · simp only [find, h1, if_false] at h
      simp only [h1, if_false, List.length_cons]
      exact Nat.succ_lt_succ (ih h)

theorem find_insert (m : List (Nat × R)) (k i : Nat) (r : R) (h : find m k = none) :
    find (insert m k r) i = if i = k then some r else find m i := by
  simp only [insert, h, find]
  by_cases h2 : i = k
  · simp [h2]
  · have : ¬ k = i := fun h => h2 h.symm
    simp [h2, this]

theorem eq_nil_of_find_none (m : List (Nat × R)) (h : ∀ i, find m i = none) : m = [] := by
  cases m with
  | nil => rfl
  | cons e m =>
    obtain ⟨k1, r⟩ := e
    have := h k1
    simp [find] at this

theorem run_append (resp : Nat → R) (es fs : List event) :
    ∀ s, run resp s (es ++ fs)
      = (match run resp s es with
          | none => none
          | some s1 => run resp s1 fs) := by
  induction es with
  | nil => intro s; rfl
  | cons e es ih =>
    intro s
    simp only [List.cons_append, run]
    cases step resp s e with
    | none => rfl
    | some s1 => exact ih s1

theorem emit_loop_spec (resp : Nat → R) (n : Nat) (done : List Nat) :
    ∀ (fuel : Nat) (s : connection_context R), Inv resp s n done →
      s._responses.length < fuel →
      ∃ s1, process_next_response_loop fuel s = some s1 ∧ Inv resp s1 n done ∧
        s1._next_response ∉ done := by
  intro fuel
  induction fuel with
  | zero => intro s _ h; omega
  | succ fuel ih =>
    intro s hinv hlen
    rw [process_next_response_loop]
    have htab := hinv.table s._next_response
    cases hf : find s._responses s._next_response with
    | none =>
      refine ⟨s, rfl, hinv, ?_⟩
      intro hmem
      rw [hf] at htab
      simp [hmem] at htab
    | some r =>
      rw [hf] at htab
      have hmem : s._next_response ∈ done := by
        by_contra hc
        simp [hc] at htab
      have hr : r = resp s._next_response := by
        simp [hmem] at htab
        exact htab
      have hlt := length_erase_lt s._responses s._next_response r hf
      have hinv1 : Inv resp
          { s with
            _next_response := s._next_response + 1,
            _responses := erase s._responses s._next_response,
            written := s.written ++ [(s._next_response, r)] } n done := by
        refine ⟨hinv.seq, ?_, ?_, ?_, hinv.bound, ?_⟩
        · exact hinv.bound _ hmem
        · intro i hi
          by_cases h : i = s._next_response
          · rw [h]; exact hmem
          · exact hinv.below i (by simp only at hi; omega)
        · intro i
          simp only [find_erase, hinv.table i]
          by_cases h : i = s._next_response
          · simp [h]
          · by_cases h2 : i ∈ done
            · have : s._next_response ≤ i ↔ s._next_response + 1 ≤ i := by omega
              simp [h, h2, this]
            · simp [h, h2]
        · simp only [hinv.log, hr, List.range_succ, List.map_append, List.map_cons,
            List.map_nil]
      exact ih _ hinv1 (by simp only; omega)

theorem run_spec (resp : Nat → R) :
    ∀ (es : List event) (s : connection_context R) (n : Nat) (done : List Nat),
      Inv resp s n done → well_formed_from n done es = true →
      ∃ s1 done1, run resp s es = some s1 ∧ Inv resp s1 (n + decodes es) done1 ∧
        (∀ i, i ∈ done1 ↔ i ∈ done ∨ i ∈ completions es) := by
  intro es
  induction es with
  | nil =>
    intro s n done hinv _
    exact ⟨s, done, rfl, hinv, by simp [completions]⟩
  | cons e es ih =>
    intro s n done hinv hwf
    cases e with
    | decode =>
      simp only [well_formed_from] at hwf
      have hinv1 : Inv resp (dispatch s) (n + 1) done :=
        ⟨by simp [dispatch, hinv.seq], Nat.le_succ_of_le hinv.le, hinv.below, hinv.table,
          fun i hi => Nat.lt_succ_of_lt (hinv.bound i hi), hinv.log⟩
      obtain ⟨s1, done1, h1, h2, h3⟩ := ih (dispatch s) (n + 1) done hinv1 hwf
      refine ⟨s1, done1, ?_, ?_, ?_⟩
      · simpa [run, step] using h1
      · have : n + decodes (event.decode :: es) = n + 1 + decodes es := by
          simp [decodes]; omega
        rw [this]; exact h2
      · simpa [completions] using h3
    | complete k =>
      simp only [well_formed_from, Bool.and_eq_true, decide_eq_true_eq,
        Bool.not_eq_true'] at hwf
      obtain ⟨⟨hk, hnd0⟩, hwf1⟩ := hwf
      have hnd : k ∉ done := by
        intro hmem
        simp [hmem] at hnd0
      have hnone : find s._responses k = none := by
        rw [hinv.table k]; simp [hnd]
      have hge : s._next_response ≤ k := by
        by_contra hc
        exact hnd (hinv.below k (by omega))
      have hinv1 : Inv resp (complete s k (resp k)) n (k :: done) := by
        refine ⟨hinv.seq, hinv.le, ?_, ?_, ?_, hinv.log⟩
        · intro i hi
          exact List.mem_cons_of_mem _ (hinv.below i hi)
        · intro i
          simp only [complete, find_insert _ _ _ _ hnone, hinv.table i, List.mem_cons]
          by_cases h : i = k
          · simp [h, hge]
          · simp [h]
        · intro i hi
          rcases List.mem_cons.mp hi with h | h
          · rw [h]; exact hk
          · exact hinv.bound i h
      obtain ⟨s1, done1, h1, h2, h3⟩ := ih _ n (k :: done) hinv1 hwf1
      refine ⟨s1, done1, ?_, ?_, ?_⟩
      · simpa [run, step] using h1
      · simpa [decodes] using h2
      · intro i
        rw [h3 i]
        simp only [completions, List.mem_cons]
        tauto
    | emit =>
      simp only [well_formed_from] at hwf
      obtain ⟨s0, h0, hinv0, _⟩ :=
        emit_loop_spec resp n done (s._responses.length + 1) s hinv (Nat.lt_succ_self _)
      obtain ⟨s1, done1, h1, h2, h3⟩ := ih s0 n done hinv0 hwf
      refine ⟨s1, done1, ?_, ?_, ?_⟩
      · simp only [run, step, process_next_response, h0]
        exact h1
      · simpa [decodes] using h2
      · simpa [completions] using h3

theorem inv_init (resp : Nat → R) : Inv resp (init : connection_context R) 0 [] :=
  ⟨rfl, Nat.le_refl _, by intro i hi; simp [init] at hi, by intro i; simp [init, find],
    by intro i hi; simp at hi, by simp [init]⟩


/-- C5: on a new connection, for every well-formed sequence of decodes, completions (in any
order) and runs of the emit loop, the session reaches a state whose stream holds exactly the
responses of the requests below the next-due counter, in decode order.  When all `N`
decoded requests have completed, one more run of the emit loop leaves the responses of all
`N` requests on the stream in decode order, every sequence id released exactly once (the
released ids are `0, ..., N-1`), the table empty and the next-due counter at `N`. -/
theorem responses_emitted_in_decode_order (resp : Nat → R) (es : List event)
    (hwf : well_formed es = true) :
    (∃ s, run resp init es = some s ∧
      s.written = (List.range s._next_response).map (fun i => (i, resp i)) ∧
      s._next_response ≤ s._seq_idx ∧ s._seq_idx = decodes es) ∧
    ((∀ i, i < decodes es → i ∈ completions es) →
      ∃ s, run resp init (es ++ [event.emit]) = some s ∧
        s.written = (List.range (decodes es)).map (fun i => (i, resp i)) ∧
        s.written.map Prod.fst = List.range (decodes es) ∧
        s._responses = [] ∧ s._next_response = decodes es ∧ s._seq_idx = decodes es) := by
  obtain ⟨s1, done1, h1, hinv1, hdone⟩ := run_spec resp es init 0 [] (inv_init resp) hwf
  simp only [Nat.zero_add, List.not_mem_nil, false_or] at hinv1 hdone
  refine ⟨⟨s1, h1, hinv1.log, ?_, hinv1.seq⟩, ?_⟩
  · rw [hinv1.seq]; exact hinv1.le
  · intro hall
    obtain ⟨s2, h2, hinv2, hnot⟩ :=
      emit_loop_spec resp (decodes es) done1 (s1._responses.length + 1) s1 hinv1
        (Nat.lt_succ_self _)
    have hnext : s2._next_response = decodes es := by
      have hle := hinv2.le
      by_contra hne
      have hlt : s2._next_response < decodes es := by omega
      exact hnot ((hdone _).mpr (hall _ hlt))
    have hempty : s2._responses = [] := by
      apply eq_nil_of_find_none
      intro i
      rw [hinv2.table i]
      by_cases hi : i ∈ done1
      · have := hinv2.bound i hi
        have : ¬ s2._next_response ≤ i := by omega
        simp [this]
      · simp [hi]
    refine ⟨s2, ?_, ?_, ?_, hempty, hnext, hinv2.seq⟩
    · rw [run_append, h1]
      simp only [run, step, process_next_response, h2]
    · rw [hinv2.log, hnext]
    · rw [hinv2.log, hnext, List.map_map]
      simp [Function.comp_def]

/-- Witness of `responses_emitted_in_decode_order`: three requests completing in the order
1, 2, 0, the response of request `i` being `10 * i`. -/
theorem responses_emitted_in_decode_order_witness :
    well_formed sample_events = true ∧
      (∀ i, i < decodes sample_events → i ∈ completions sample_events) ∧
      ∃ s, run (fun i => 10 * i) init (sample_events ++ [event.emit]) = some s ∧
        s.written = (List.range (decodes sample_events)).map (fun i => (i, 10 * i)) ∧
        s.written.map Prod.fst = List.range (decodes sample_events) ∧
        s._responses = [] ∧ s._next_response = decodes sample_events ∧
        s._seq_idx = decodes sample_events :=
  ⟨by decide, by decide,
    (responses_emitted_in_decode_order (fun i => 10 * i) sample_events (by decide)).2
      (by decide)⟩

end connection_context
end protocol
end kafka

namespace kafka
namespace fetch_request
open const_iterator

/-! ## `debounce_delay` and `empty` -/

/-- C11: `debounce_delay()` returns no value exactly when `max_wait_time ≤ 0`, and for a
positive `max_wait_time` it returns exactly `max_wait_time`. -/
theorem debounce_delay_spec (r : fetch_request) :
    (r.debounce_delay = none ↔ r.max_wait_time ≤ 0) ∧
      (0 < r.max_wait_time → r.debounce_delay = some r.max_wait_time) := by
  unfold debounce_delay
  constructor
  · by_cases h : r.max_wait_time ≤ 0 <;> simp [h]
  · intro h
    have : ¬ r.max_wait_time ≤ 0 := by omega
    simp [this]

/-- Witness of `debounce_delay_spec`: the sample request, whose `max_wait_time` is 100. -/
theorem debounce_delay_spec_witness :
    0 < sample_request.max_wait_time ∧ sample_request.debounce_delay = some 100 :=
  ⟨by decide, (debounce_delay_spec sample_request).2 (by decide)⟩

theorem flatten_from_eq_nil_iff (ts : List topic) :
    ∀ k, flatten_from k ts = [] ↔ ∀ t ∈ ts, t.partitions = [] := by
  induction ts with
  | nil => intro k; simp [flatten_from]
  | cons t ts ih =>
    intro k
    simp only [flatten_from, List.append_eq_nil, List.map_eq_nil_iff, List.range_eq_nil,
      List.length_eq_zero, ih (k + 1), List.mem_cons, forall_eq_or_imp]

theorem all_empty_of_nil (r : fetch_request) :
    (r.topics = [] ∨ ∀ t ∈ r.topics, t.partitions = []) ↔ ∀ t ∈ r.topics, t.partitions = [] := by
  constructor
  · intro h
    rcases h with h | h
    · intro t ht; rw [h] at ht; cases ht
    · exact h
  · intro h; exact Or.inr h

/-- C12: `empty()` is true exactly when the request has no topics or every topic has no
partition, and exactly when the flattened traversal has no step: `cbegin() == cend()`, and
the traversal visits nothing. -/
theorem empty_iff_cbegin_eq_cend (r : fetch_request) :
    (r.empty = true ↔ (r.topics = [] ∨ ∀ t ∈ r.topics, t.partitions = [])) ∧
      ∃ b e, r.cbegin = some b ∧ r.cend = some e ∧
        (r.empty = true ↔ eq b e = true) ∧
        (eq b e = true ↔ r.traversal = some []) ∧
        (r.empty = true ↔ r.partition_count = 0) := by
  have hempty : r.empty = true ↔ (r.topics = [] ∨ ∀ t ∈ r.topics, t.partitions = []) := by
    simp [fetch_request.empty, List.isEmpty_iff]
  have hflat : r.empty = true ↔ r.flatten = [] := by
    rw [hempty, all_empty_of_nil, flatten, flatten_from_eq_nil_iff]
  obtain ⟨b, hb, hg, hrem⟩ := cbegin_spec r
  have heq : eq b ⟨⟨true, r.topics.length, none⟩, r.topics.length⟩ = true ↔ r.flatten = [] := by
    rw [← hrem, rem_of_nil_iff r.topics b hg]
    by_cases h : b.state_.topic = r.topics.length
    · simp [eq, h, hg.1]
    · simp [eq, h]
  have htrav : r.traversal = some (r.flatten.map value_at) := traversal_spec r 0
  have hlen : r.flatten.length = r.partition_count := by
    simp [flatten, length_flatten_from, partition_count]
  refine ⟨hempty, b, _, hb, cend_eq r, ?_, ?_, ?_⟩
  · rw [hflat, heq]
  · rw [heq, htrav]
    simp
  · rw [hflat, ← hlen, List.length_eq_zero]

end fetch_request

namespace op_context

/-- C17: with the deadline unset, `should_stop_fetch()` is true whatever the wait time, the
response size, `min_bytes`, the request and the error flag are: the comparison of an empty
optional with the current time is true. -/
theorem should_stop_fetch_of_no_deadline (c : op_context) (now : Int)
    (hd : c.deadline = none) :
    optional_le c.deadline now = true ∧ c.should_stop_fetch now = true := by
  have h : optional_le c.deadline now = true := by rw [hd]; rfl
  exact ⟨h, by simp [should_stop_fetch, h]⟩

/-- Witness of `should_stop_fetch_of_no_deadline`: the sample request (positive wait time,
partitions present, `min_bytes = 1`) with nothing collected, no error and no deadline. -/
theorem should_stop_fetch_of_no_deadline_witness :
    (fresh fetch_request.sample_request 0 none).deadline = none ∧
      0 < (fresh fetch_request.sample_request 0 none).request.max_wait_time ∧
      (fresh fetch_request.sample_request 0 none).over_min_bytes = false ∧
      (fresh fetch_request.sample_request 0 none).request.empty = false ∧
      (fresh fetch_request.sample_request 0 none).response_error = false ∧
      (fresh fetch_request.sample_request 0 none).should_stop_fetch 0 = true :=
  ⟨rfl, by decide, by decide, by decide, rfl,
    (should_stop_fetch_of_no_deadline (fresh fetch_request.sample_request 0 none) 0 rfl).2⟩

end op_context
end kafka

namespace kafka

/-! ## read_result and partition_wrapper -/

namespace read_result

/-- C13, counterexample: the result built by `read_result(hw, lso)` has the error code `none`
and carries no reader, so it is in neither of the two cases; the same holds for
`read_result(error_code::none)`. -/
theorem offsets_only_result_in_neither_case :
    (build 0 (construction.with_offsets 5 3)).error = error_code.none ∧
      (build 0 (construction.with_offsets 5 3)).reader = none ∧
      ¬ (is_error_outcome (build 0 (construction.with_offsets 5 3)) ∨
          is_reader_outcome (build 0 (construction.with_offsets 5 3))) ∧
      ¬ (is_error_outcome (build 0 (construction.with_error error_code.none)) ∨
          is_reader_outcome (build 0 (construction.with_error error_code.none))) := by
  refine ⟨rfl, rfl, ?_, ?_⟩ <;>
    simp [is_error_outcome, is_reader_outcome, build, of_offsets, of_error]

/-- C13, amended: a `read_result` built by any constructor is in exactly one of three cases:
an error code other than `none` and no reader; the error code `none` and a reader; the error
code `none` and no reader.  A result with an error code other than `none` was built by
`read_result(error_code)` and carries no reader; a result that carries a reader was built by
`read_result(rdr, hw, lso)`, has the error code `none` and carries that reader, high
watermark and last stable offset; `read_result(hw, lso)` gives the error code `none`, no
reader and the offsets it was given. -/
theorem read_result_cases (default_offset : Int) (call : construction) :
    (¬ (is_error_outcome (build default_offset call) ∧
          is_reader_outcome (build default_offset call))) ∧
      (is_error_outcome (build default_offset call) ∨
        is_reader_outcome (build default_offset call) ∨
        ((build default_offset call).error = error_code.none ∧
          (build default_offset call).reader = none)) ∧
      ((build default_offset call).error ≠ error_code.none →
        (build default_offset call).reader = none ∧
          call = construction.with_error (build default_offset call).error) ∧
      (∀ rdr, (build default_offset call).reader = some rdr →
        (build default_offset call).error = error_code.none ∧
          call = construction.with_reader rdr (build default_offset call).high_watermark
            (build default_offset call).last_stable_offset) ∧
      (∀ hw lso, call = construction.with_offsets hw lso →
        build default_offset call
          = { reader := none, high_watermark := hw, last_stable_offset := lso,
              error := error_code.none }) := by
  cases call with
  | with_error e =>
    refine ⟨?_, ?_, ?_, ?_, ?_⟩
    · simp [is_error_outcome, is_reader_outcome, build, of_error]
    · by_cases h : e = error_code.none
      · right; right; simp [build, of_error, h]
      · left; simp [is_error_outcome, build, of_error, h]
    · intro _; simp [build, of_error]
    · intro rdr h; simp [build, of_error] at h
    · intro hw lso h; cases h
  | with_reader rdr hw lso =>
    refine ⟨?_, ?_, ?_, ?_, ?_⟩
    · simp [is_error_outcome, is_reader_outcome, build, of_reader]
    · right; left; simp [is_reader_outcome, build, of_reader]
    · intro h; simp [build, of_reader] at h
    · intro r h
      simp only [build, of_reader, Option.some.injEq] at h
      simp [build, of_reader, h]
    · intro hw1 lso1 h; cases h
  | with_offsets hw lso =>
    refine ⟨?_, ?_, ?_, ?_, ?_⟩
    · simp [is_error_outcome, is_reader_outcome, build, of_offsets]
    · right; right; simp [build, of_offsets]
    · intro h; simp [build, of_offsets] at h
    · intro r h; simp [build, of_offsets] at h
    · intro hw1 lso1 h
      cases h
      rfl

end read_result

namespace partition_wrapper

/-- C16: a wrapper that holds a log snapshot answers `make_reader`, `high_watermark` and
`last_stable_offset` from the snapshot (both offsets are the snapshot's dirty offset, hence
equal), whatever the live partition is; a wrapper that holds no snapshot answers the three
from the live partition.  On the sample partition and snapshot the two answers differ. -/
theorem partition_wrapper_reads_snapshot_or_partition (p : cluster_partition)
    (l : storage_log) (config : log_reader_config) :
    (make_reader ⟨p, some l⟩ config = l.make_reader config ∧
      high_watermark ⟨p, some l⟩ = l.dirty_offset ∧
      last_stable_offset ⟨p, some l⟩ = l.dirty_offset ∧
      high_watermark ⟨p, some l⟩ = last_stable_offset ⟨p, some l⟩) ∧
    (make_reader ⟨p, none⟩ config = p.make_reader config ∧
      high_watermark ⟨p, none⟩ = p.high_watermark ∧
      last_stable_offset ⟨p, none⟩ = p.last_stable_offset) ∧
    (∀ q : cluster_partition,
      make_reader ⟨q, some l⟩ config = make_reader ⟨p, some l⟩ config ∧
      high_watermark ⟨q, some l⟩ = high_watermark ⟨p, some l⟩ ∧
      last_stable_offset ⟨q, some l⟩ = last_stable_offset ⟨p, some l⟩) ∧
    (high_watermark ⟨sample_partition, some sample_log⟩ = 25 ∧
      last_stable_offset ⟨sample_partition, some sample_log⟩ = 25 ∧
      high_watermark ⟨sample_partition, none⟩ = 40 ∧
      last_stable_offset ⟨sample_partition, none⟩ = 30 ∧
      make_reader ⟨sample_partition, some sample_log⟩ config = ⟨[]⟩ ∧
      make_reader ⟨sample_partition, none⟩ config = ⟨[[1, 2, 3]]⟩) :=
  ⟨⟨rfl, rfl, rfl, rfl⟩, ⟨rfl, rfl, rfl⟩, fun _ => ⟨rfl, rfl, rfl⟩,
    ⟨rfl, rfl, rfl, rfl, rfl, rfl⟩⟩

end partition_wrapper

end kafka

namespace kafka

/-! ## Lockstep of the two iterators -/

theorem begin_sim {req : fetch_request} {resp : fetch_response}
    (h : same_shape req.topics resp.partitions) :
    resp.begin = req.cbegin.map to_response_iterator := by
  unfold fetch_response.begin fetch_request.cbegin
  rw [← same_shape_length h, mk_iterator_sim h]

theorem end_sim {req : fetch_request} {resp : fetch_response}
    (h : same_shape req.topics resp.partitions) :
    resp.end_ = req.cend.map to_response_iterator := by
  unfold fetch_response.end_ fetch_request.cend
  rw [← same_shape_length h, mk_iterator_sim h]

theorem same_shape_count {req : fetch_request} {resp : fetch_response}
    (h : same_shape req.topics resp.partitions) :
    req.partition_count = resp.response_count := by
  unfold fetch_request.partition_count fetch_response.response_count
  rw [show List.map (fun t : fetch_request.topic => t.partitions.length) req.topics
    = List.map (fun g : fetch_response.partition => g.responses.length) resp.partitions from h]

/-- C14: when a response has the shape of a request, the response iterator after `k`
increments from `begin()` is the request iterator after `k` increments from `cbegin()` with
the flag dropped, for every `k` (beyond the end neither is defined); up to the number of
partitions both exist, sit at the same (topic index, partition index), and each equals its
end exactly when `k` is the number of partitions, which is the number of partition
responses. -/
theorem lockstep_traversal (req : fetch_request) (resp : fetch_response)
    (h : same_shape req.topics resp.partitions) (k : Nat) :
    resp.advance k = (req.advance k).map to_response_iterator ∧
      req.partition_count = resp.response_count ∧
      (k ≤ req.partition_count →
        ∃ a b e f, req.advance k = some a ∧ resp.advance k = some b ∧
          req.cend = some e ∧ resp.end_ = some f ∧
          b.state_.partition = a.state_.topic ∧
          b.state_.partition_response = a.state_.partition ∧
          (fetch_request.const_iterator.eq a e = true ↔ k = req.partition_count) ∧
          (fetch_response.iterator.eq b f = true ↔ k = resp.response_count)) := by
  refine ⟨advance_sim h k, same_shape_count h, ?_⟩
  intro hk
  obtain ⟨a, ha, hiff⟩ := fetch_request.advance_eq_cend_iff req k hk
  refine ⟨a, to_response_iterator a, _, to_response_iterator
    ⟨⟨true, req.topics.length, none⟩, req.topics.length⟩, ha, ?_, fetch_request.cend_eq req,
    ?_, rfl, rfl, hiff, ?_⟩
  · rw [advance_sim h k, ha]; rfl
  · rw [end_sim h, fetch_request.cend_eq req]; rfl
  · rw [eq_sim, hiff, same_shape_count h]

/-- Witness of `lockstep_traversal`: the sample request and a response of its shape, after
two increments. -/
theorem lockstep_traversal_witness :
    same_shape fetch_request.sample_request.topics fetch_response.lockstep_response.partitions ∧
      2 ≤ fetch_request.sample_request.partition_count ∧
      fetch_response.lockstep_response.advance 2
        = (fetch_request.sample_request.advance 2).map to_response_iterator ∧
      ∃ a b e f, fetch_request.sample_request.advance 2 = some a ∧
        fetch_response.lockstep_response.advance 2 = some b ∧
        fetch_request.sample_request.cend = some e ∧
        fetch_response.lockstep_response.end_ = some f ∧
        b.state_.partition = a.state_.topic ∧
        b.state_.partition_response = a.state_.partition ∧
        (fetch_request.const_iterator.eq a e = true
          ↔ 2 = fetch_request.sample_request.partition_count) ∧
        (fetch_response.iterator.eq b f = true
          ↔ 2 = fetch_response.lockstep_response.response_count) :=
  ⟨by unfold same_shape; decide, by decide,
    (lockstep_traversal fetch_request.sample_request fetch_response.lockstep_response
      (by unfold same_shape; decide) 2).1,
    (lockstep_traversal fetch_request.sample_request fetch_response.lockstep_response
      (by unfold same_shape; decide) 2).2.2 (by decide)⟩

end kafka

namespace kafka

/-! ## The normalization invariant -/

theorem good_of_produced (r : fetch_request) (it : fetch_request.const_iterator)
    (h : fetch_request.produced r it) : fetch_request.Good r.topics it := by
  induction h with
  | cbegin hb =>
    obtain ⟨b, hb1, hg, _⟩ := fetch_request.cbegin_spec r
    rw [hb] at hb1
    cases hb1
    exact hg
  | cend he =>
    rw [fetch_request.cend_eq r] at he
    cases he
    exact ⟨rfl, Or.inl ⟨rfl, rfl⟩⟩
  | @incr it0 e it1 _ he hne hincr ih =>
    rw [fetch_request.cend_eq r] at he
    cases he
    have hnot : it0.state_.topic ≠ r.topics.length := by
      intro htop
      simp [fetch_request.const_iterator.eq, htop, ih.1] at hne
    obtain ⟨_, it2, _, hincr2, hg2, _⟩ := fetch_request.incr_spec r.topics it0 ih hnot
    rw [hincr] at hincr2
    cases hincr2
    exact hg2

theorem in_bounds_of_good (topics : List fetch_request.topic)
    (it : fetch_request.const_iterator) (hg : fetch_request.Good topics it) :
    fetch_request.in_bounds topics it ∧ it.state_.topic ≤ topics.length := by
  rcases hg.2 with ⟨h, _⟩ | ⟨t, j, ht, hp, hj, _⟩
  · exact ⟨Or.inl h, Nat.le_of_eq h⟩
  · exact ⟨Or.inr ⟨t, j, ht, hp, hj⟩, Nat.le_of_lt (List.getElem?_eq_some_iff.mp ht).1⟩

theorem produced_sim (resp : fetch_response) (b : fetch_response.iterator)
    (h : fetch_response.produced resp b) :
    ∃ a, fetch_request.produced (request_of_shape resp) a ∧ b = to_response_iterator a := by
  have hs : same_shape (request_of_shape resp).topics resp.partitions :=
    same_shape_shape_of resp.partitions
  induction h with
  | begin hb =>
    rw [begin_sim hs] at hb
    cases ha : (request_of_shape resp).cbegin with
    | none => simp [ha] at hb
    | some a =>
      simp only [ha, Option.map_some', Option.some.injEq] at hb
      exact ⟨a, fetch_request.produced.cbegin ha, hb.symm⟩
  | end_ he =>
    rw [end_sim hs] at he
    cases ha : (request_of_shape resp).cend with
    | none => simp [ha] at he
    | some a =>
      simp only [ha, Option.map_some', Option.some.injEq] at he
      exact ⟨a, fetch_request.produced.cend ha, he.symm⟩
  | incr _ he hne hincr ih =>
    obtain ⟨a, hpa, rfl⟩ := ih
    rw [end_sim hs] at he
    cases hc : (request_of_shape resp).cend with
    | none => simp [hc] at he
    | some e0 =>
      simp only [hc, Option.map_some', Option.some.injEq] at he
      rw [← he, eq_sim] at hne
      rw [incr_sim hs] at hincr
      cases hi : fetch_request.const_iterator.incr (request_of_shape resp).topics a with
      | none => simp [hi] at hincr
      | some a1 =>
        simp only [hi, Option.map_some', Option.some.injEq] at hincr
        exact ⟨a1, fetch_request.produced.incr hpa hc hne hi, hincr.symm⟩

theorem response_in_bounds_of_good (resp : fetch_response)
    (a : fetch_request.const_iterator)
    (hg : fetch_request.Good (request_of_shape resp).topics a) :
    fetch_response.in_bounds resp.partitions (to_response_iterator a) ∧
      (to_response_iterator a).state_.partition ≤ resp.partitions.length := by
  have hs : same_shape (request_of_shape resp).topics resp.partitions :=
    same_shape_shape_of resp.partitions
  have hlen := same_shape_length hs
  rcases hg.2 with ⟨h, _⟩ | ⟨t, j, ht, hp, hj, _⟩
  · refine ⟨Or.inl ?_, ?_⟩
    · simp only [to_response_iterator]; rw [h, hlen]
    · simp only [to_response_iterator]; rw [h, hlen]
  · have hget := same_shape_getElem? hs a.state_.topic
    have hlt := (List.getElem?_eq_some_iff.mp ht).1
    cases hg2 : resp.partitions[a.state_.topic]? with
    | none => simp [ht, hg2] at hget
    | some g =>
      have hl : t.partitions.length = g.responses.length := by
        simpa [ht, hg2] using hget
      refine ⟨Or.inr ⟨g, j, hg2, hp, by omega⟩, ?_⟩
      simp only [to_response_iterator]
      omega

/-- C15: every iterator that construction (`cbegin()` / `begin()`, `cend()` / `end()`, which
always return, also over no topics) or the increment of an iterator not equal to end
produces is at end or has its partition cursor strictly inside the partition list of its
current topic, and its topic cursor is never past the topics' end; an iterator so produced
that is not equal to end can be dereferenced (both cursors point at elements) and
incremented.  The same holds for the response iterator. -/
theorem iterators_stay_normalized (r : fetch_request) (resp : fetch_response) :
    ((∃ b e, r.cbegin = some b ∧ r.cend = some e ∧
        fetch_request.produced r b ∧ fetch_request.produced r e) ∧
      (∀ it, fetch_request.produced r it →
        fetch_request.in_bounds r.topics it ∧ it.state_.topic ≤ r.topics.length) ∧
      (∀ it e, fetch_request.produced r it → r.cend = some e →
        fetch_request.const_iterator.eq it e = false →
        (fetch_request.const_iterator.deref r.topics it.state_).isSome = true ∧
          ∃ it1, fetch_request.const_iterator.incr r.topics it = some it1 ∧
            fetch_request.produced r it1)) ∧
    ((∃ b e, resp.begin = some b ∧ resp.end_ = some e ∧
        fetch_response.produced resp b ∧ fetch_response.produced resp e) ∧
      (∀ it, fetch_response.produced resp it →
        fetch_response.in_bounds resp.partitions it ∧
          it.state_.partition ≤ resp.partitions.length) ∧
      (∀ it e, fetch_response.produced resp it → resp.end_ = some e →
        fetch_response.iterator.eq it e = false →
        (fetch_response.iterator.deref resp.partitions it.state_).isSome = true ∧
          ∃ it1, fetch_response.iterator.incr resp.partitions it = some it1 ∧
            fetch_response.produced resp it1)) := by
  have hs : same_shape (request_of_shape resp).topics resp.partitions :=
    same_shape_shape_of resp.partitions
  refine ⟨⟨?_, ?_, ?_⟩, ⟨?_, ?_, ?_⟩⟩
  · obtain ⟨b, hb, _, _⟩ := fetch_request.cbegin_spec r
    exact ⟨b, _, hb, fetch_request.cend_eq r, fetch_request.produced.cbegin hb,
      fetch_request.produced.cend (fetch_request.cend_eq r)⟩
  · intro it hp
    exact in_bounds_of_good r.topics it (good_of_produced r it hp)
  · intro it e hp he hne
    have hg := good_of_produced r it hp
    have he0 := he
    rw [fetch_request.cend_eq r] at he0
    cases he0
    have hnot : it.state_.topic ≠ r.topics.length := by
      intro htop
      simp [fetch_request.const_iterator.eq, htop, hg.1] at hne
    obtain ⟨_, it1, _, hincr, _, _, hd, _⟩ := fetch_request.incr_spec r.topics it hg hnot
    exact ⟨hd, it1, hincr, fetch_request.produced.incr hp he hne hincr⟩
  · obtain ⟨b, hb, _, _⟩ := fetch_request.cbegin_spec (request_of_shape resp)
    have hb2 : resp.begin = some (to_response_iterator b) := by rw [begin_sim hs, hb]; rfl
    have he2 : resp.end_ = some (to_response_iterator
        ⟨⟨true, (request_of_shape resp).topics.length, none⟩,
          (request_of_shape resp).topics.length⟩) := by
      rw [end_sim hs, fetch_request.cend_eq]; rfl
    exact ⟨_, _, hb2, he2, fetch_response.produced.begin hb2, fetch_response.produced.end_ he2⟩
  · intro it hp
    obtain ⟨a, hpa, rfl⟩ := produced_sim resp it hp
    exact response_in_bounds_of_good resp a (good_of_produced _ a hpa)
  · intro it e hp he hne
    obtain ⟨a, hpa, rfl⟩ := produced_sim resp it hp
    have hg := good_of_produced _ a hpa
    have he0 := he
    rw [end_sim hs, fetch_request.cend_eq] at he0
    simp only [Option.map_some', Option.some.injEq] at he0
    have hne0 := hne
    rw [← he0, eq_sim] at hne0
    have hnot : a.state_.topic ≠ (request_of_shape resp).topics.length := by
      intro htop
      simp [fetch_request.const_iterator.eq, htop, hg.1] at hne0
    obtain ⟨j, a1, hpj, hincr, _, _, _, _⟩ :=
      fetch_request.incr_spec (request_of_shape resp).topics a hg hnot
    have hincr2 : fetch_response.iterator.incr resp.partitions (to_response_iterator a)
        = some (to_response_iterator a1) := by
      rw [incr_sim hs, hincr]; rfl
    refine ⟨?_, _, hincr2, fetch_response.produced.incr hp he hne hincr2⟩
    obtain ⟨hib, _⟩ := response_in_bounds_of_good resp a hg
    rcases hib with hend | ⟨g, j2, hg2, hp2, hj2⟩
    · exfalso
      apply hnot
      simp only [to_response_iterator] at hend
      rw [hend, same_shape_length hs]
    · have : (g.responses[j2]?).isSome = true := by simp [hj2]
      obtain ⟨q, hq⟩ := Option.isSome_iff_exists.mp this
      simp [fetch_response.iterator.deref, hg2, hp2, hq]

end kafka
